import Mathlib

/-!
Verification of the PLM-Lite part/BOM lifecycle engine and document
version-rotation store against its natural-language specification.

The definitions below are a shallow embedding of the Python sources
(`app/database.py`, `app/files.py`, `app/models.py`, the parts router):
SQLite rows become Lean structures, tables become lists, the database
becomes an explicit state value threaded through each operation, and
`CURRENT_TIMESTAMP` becomes an explicit `now : Nat` argument.  Joined
display-name columns (e.g. `created_by_name`) and the attributes join,
which no verified property mentions, are omitted from row structures.
-/

namespace PLM

/-- Typed error kinds surfaced to callers (spec section 7). -/
inductive ApiError where
  | NotFound
  | Conflict
  | LockedState
  | ValidationError
  | PathTraversal
deriving Repr, DecidableEq

/-- A row of the `parts` table (`app/database.py`).  Timestamps are
modelled as `Nat` tick values supplied by the caller. -/
structure Part where
  id : Nat
  part_number : String
  part_name : String
  part_revision : String
  description : String
  part_level : String
  release_status : String
  is_locked : Bool
  checked_out_by : Option Nat
  checked_out_at : Option Nat
  checked_out_station : Option String
  created_by : Nat
  created_at : Nat
  updated_at : Nat
deriving Repr, DecidableEq

/-- A row of the append-only `audit_log` table; `detail_json` is kept as a
structured key/value list instead of a JSON string. -/
structure AuditEntry where
  user_id : Nat
  action : String
  entity_type : String
  entity_id : Option Nat
  detail : List (String × String)
deriving Repr, DecidableEq

/-- A row of the `part_revisions` table; `snapshot_json` (a JSON dump of the
full part record) is kept as the structured `Part` value itself. -/
structure RevisionRow where
  part_id : Nat
  revision_label : String
  description : String
  changed_by : Nat
  snapshot : Part
deriving Repr, DecidableEq

/-- The part-registry slice of the SQLite database. -/
structure DB where
  parts : List Part
  revisions : List RevisionRow
  audit : List AuditEntry
deriving Repr, DecidableEq

/-- `SELECT * FROM parts WHERE id=?` (`Database.get_part`, display joins
and the attribute list omitted). -/
def find_part (db : DB) (pid : Nat) : Option Part :=
  db.parts.find? (fun p => p.id = pid)

/-- `UPDATE parts SET ... WHERE id=?`: rewrite every row whose id matches. -/
def upd_parts (parts : List Part) (pid : Nat) (f : Part → Part) : List Part :=
  parts.map (fun p => if p.id = pid then f p else p)

/-- The row rewrite performed by a successful checkout: set holder, checkout
timestamp and station, touching nothing else. -/
def co_upd (user_id now : Nat) (station : String) (p : Part) : Part :=
  { p with checked_out_by := some user_id, checked_out_at := some now,
           checked_out_station := some station }

/-- The audit entry emitted by a successful checkout. -/
def co_audit (user_id part_id : Nat) (station : String) : AuditEntry :=
  { user_id := user_id, action := "checkout", entity_type := "part",
    entity_id := some part_id, detail := [("station", station)] }

/-- `Database.checkout_part`: read `checked_out_by`; refuse if the part is
missing or already held, otherwise set holder, timestamp and station and
append one audit entry. -/
def checkout_part (db : DB) (part_id user_id : Nat) (station : String) (now : Nat) :
    DB × Bool :=
  match find_part db part_id with
  | none => (db, false)
  | some row =>
    if row.checked_out_by ≠ none then (db, false)
    else
      ({ db with
           parts := upd_parts db.parts part_id (co_upd user_id now station),
           audit := db.audit ++ [co_audit user_id part_id station] },
       true)

/-- The `/api/parts/{id}/checkout` route (`parts_router.checkout`):
404 when the part is unknown, 409 Conflict when `checkout_part` refuses. -/
def checkout_route (db : DB) (part_id user_id : Nat) (station : String) (now : Nat) :
    DB × Except ApiError Part :=
  match find_part db part_id with
  | none => (db, .error .NotFound)
  | some _ =>
    let r := checkout_part db part_id user_id station now
    if r.2 then
      match find_part r.1 part_id with
      | some p => (r.1, .ok p)
      | none => (r.1, .error .NotFound)
    else (r.1, .error .Conflict)

/-- Updating rows whose id matches does not change which row `find?` sees,
provided the rewrite preserves the id. -/
theorem find?_upd_parts (l : List Part) (pid : Nat) (f : Part → Part)
    (hf : ∀ q, (f q).id = q.id) :
    (upd_parts l pid f).find? (fun q => q.id = pid)
      = (l.find? (fun q => q.id = pid)).map f := by
  induction l with
  | nil => rfl
  | cons a t ih =>
    by_cases h : a.id = pid
    · have h1 : (f a).id = pid := by rw [hf]; exact h
      simp [upd_parts, List.find?_cons, h, h1] at *
    · simp only [upd_parts, List.map_cons, if_neg h] at *
      rw [List.find?_cons_of_neg _ (by simpa using h), List.find?_cons_of_neg _ (by simpa using h)]
      exact ih

/-- Rows whose id does not match survive an `upd_parts` untouched. -/
theorem mem_upd_parts_of_ne (l : List Part) (pid : Nat) (f : Part → Part)
    (q : Part) (hq : q ∈ l) (hne : q.id ≠ pid) : q ∈ upd_parts l pid f := by
  have : (if q.id = pid then f q else q) = q := if_neg hne
  simpa [upd_parts, this] using List.mem_map_of_mem (fun p => if p.id = pid then f p else p) hq

/-- C1: for an existing part, Checkout succeeds exactly when
`checked_out_by` is null; on success it sets holder, checkout timestamp and
station (leaving other rows alone) and appends one audit entry; when a
holder is present the database is returned unchanged (no audit entry) and
the route answers Conflict. -/
theorem C1_checkout_exclusive (db : DB) (pid uid : Nat) (station : String) (now : Nat)
    (p : Part) (hp : db.parts.find? (fun q => q.id = pid) = some p) :
    ((checkout_part db pid uid station now).2 = true ↔ p.checked_out_by = none)
    ∧ (p.checked_out_by = none →
        (checkout_part db pid uid station now).1.parts.find? (fun q => q.id = pid)
          = some (co_upd uid now station p)
        ∧ (∀ q ∈ db.parts, q.id ≠ pid → q ∈ (checkout_part db pid uid station now).1.parts)
        ∧ (checkout_part db pid uid station now).1.audit
            = db.audit ++ [co_audit uid pid station]
        ∧ (checkout_part db pid uid station now).1.revisions = db.revisions)
    ∧ (p.checked_out_by ≠ none →
        checkout_part db pid uid station now = (db, false)
        ∧ checkout_route db pid uid station now = (db, .error .Conflict)) := by
  have hfp : find_part db pid = some p := hp
  by_cases hcb : p.checked_out_by = none
  · have hsucc : checkout_part db pid uid station now =
        ({ db with parts := upd_parts db.parts pid (co_upd uid now station),
                   audit := db.audit ++ [co_audit uid pid station] }, true) := by
      simp [checkout_part, hfp, hcb]
    refine ⟨by simp [hsucc, hcb], ?_, ?_⟩
    · intro _
      refine ⟨?_, ?_, ?_, ?_⟩
      · rw [hsucc]
        have hu := find?_upd_parts db.parts pid (co_upd uid now station) (fun q => rfl)
        simp [hu, hp]
      · intro q hq hne
        rw [hsucc]
        exact mem_upd_parts_of_ne _ _ _ q hq hne
      · rw [hsucc]
      · rw [hsucc]
    · intro h; exact absurd hcb h
  · have hfail : checkout_part db pid uid station now = (db, false) := by
      simp [checkout_part, hfp, hcb]
    refine ⟨by simp [hfail, hcb], fun h => absurd h hcb, fun _ => ⟨hfail, ?_⟩⟩
    simp [checkout_route, hfp, hfail]

/-- Body of a part update request (`models.PartUpdate`). -/
structure PartUpdate where
  part_name : String
  description : String
  part_level : String
deriving Repr, DecidableEq

/-- `Database.checkin_part` row rewrite: clear all checkout fields. -/
def ci_upd (p : Part) : Part :=
  { p with checked_out_by := none, checked_out_at := none, checked_out_station := none }

/-- `Database.checkin_part`: unconditional clear plus one audit entry. -/
def checkin_part (db : DB) (part_id user_id : Nat) : DB :=
  { db with
      parts := upd_parts db.parts part_id ci_upd,
      audit := db.audit ++
        [{ user_id := user_id, action := "checkin", entity_type := "part",
           entity_id := some part_id, detail := [] }] }

/-- `Database.release_part` row rewrite. -/
def rel_upd (now : Nat) (p : Part) : Part :=
  { p with release_status := "Released", is_locked := true, updated_at := now }

/-- `Database.release_part`: set Released/locked and audit "release". -/
def release_part (db : DB) (part_id user_id now : Nat) : DB :=
  { db with
      parts := upd_parts db.parts part_id (rel_upd now),
      audit := db.audit ++
        [{ user_id := user_id, action := "release", entity_type := "part",
           entity_id := some part_id, detail := [] }] }

/-- `Database.unrelease_part` row rewrite. -/
def unrel_upd (now : Nat) (p : Part) : Part :=
  { p with release_status := "Prototype", is_locked := false, updated_at := now }

/-- `Database.unrelease_part`: set Prototype/unlocked and audit "unrelease". -/
def unrelease_part (db : DB) (part_id user_id now : Nat) : DB :=
  { db with
      parts := upd_parts db.parts part_id (unrel_upd now),
      audit := db.audit ++
        [{ user_id := user_id, action := "unrelease", entity_type := "part",
           entity_id := some part_id, detail := [] }] }

/-- `Database.update_part` row rewrite: name, description, level and
`updated_at` only. -/
def upd_upd (body : PartUpdate) (now : Nat) (p : Part) : Part :=
  { p with part_name := body.part_name, description := body.description,
           part_level := body.part_level, updated_at := now }

/-- `Database.update_part`: unconditional field update plus audit. -/
def update_part (db : DB) (part_id : Nat) (body : PartUpdate) (user_id now : Nat) : DB :=
  { db with
      parts := upd_parts db.parts part_id (upd_upd body now),
      audit := db.audit ++
        [{ user_id := user_id, action := "update_part", entity_type := "part",
           entity_id := some part_id,
           detail := [("part_name", body.part_name), ("description", body.description),
                      ("part_level", body.part_level)] }] }

/-- The `/api/parts/{id}` PUT route (`parts_router.update_part`): 404 when
missing, 423 LockedState when `is_locked`, otherwise update and return the
refreshed part. -/
def update_route (db : DB) (part_id : Nat) (body : PartUpdate) (user_id now : Nat) :
    DB × Except ApiError Part :=
  match find_part db part_id with
  | none => (db, .error .NotFound)
  | some part =>
    if part.is_locked then (db, .error .LockedState)
    else
      let db2 := update_part db part_id body user_id now
      match find_part db2 part_id with
      | some q => (db2, .ok q)
      | none => (db2, .error .NotFound)

/-- `Database.bump_revision` next-label computation:
`chr(ord(current_rev[-1]) + 1) if current_rev else "B"` — the new label is
the single character one code point past the final character of the current
label. -/
def next_rev (current : String) : String :=
  match current.data.getLast? with
  | none => "B"
  | some c => String.mk [Char.ofNat (c.toNat + 1)]

/-- Modelled from the claim wording only (not from the source): the label
obtained by incrementing the final character of the current label in place,
keeping the earlier characters.  Used to compare the claimed behaviour of
ReviseRevision with the implemented one. -/
def next_rev_claimed (current : String) : String :=
  match current.data.getLast? with
  | none => "B"
  | some c => String.mk (current.data.dropLast ++ [Char.ofNat (c.toNat + 1)])

/-- `Database.bump_revision` row rewrite: new label, unlock, demote to
Prototype, bump `updated_at`. -/
def rev_upd (nrev : String) (now : Nat) (p : Part) : Part :=
  { p with part_revision := nrev, is_locked := false,
           release_status := "Prototype", updated_at := now }

/-- `Database.bump_revision`: snapshot the current record, write the next
label, unlock, demote, audit; `none` models the "Part not found" error. -/
def bump_revision (db : DB) (part_id user_id : Nat) (description : String) (now : Nat) :
    DB × Option String :=
  match find_part db part_id with
  | none => (db, none)
  | some part =>
    let nrev := next_rev part.part_revision
    ({ db with
         parts := upd_parts db.parts part_id (rev_upd nrev now),
         revisions := db.revisions ++
           [{ part_id := part_id, revision_label := part.part_revision,
              description := description, changed_by := user_id, snapshot := part }],
         audit := db.audit ++
           [{ user_id := user_id, action := "bump_revision", entity_type := "part",
              entity_id := some part_id,
              detail := [("from", part.part_revision), ("to", nrev)] }] },
     some nrev)

/-- A one-part database used to instantiate the lifecycle theorems. -/
def p0 : Part :=
  { id := 1, part_number := "100-001", part_name := "BRACKET", part_revision := "A",
    description := "", part_level := "", release_status := "Prototype", is_locked := false,
    checked_out_by := none, checked_out_at := none, checked_out_station := none,
    created_by := 7, created_at := 0, updated_at := 0 }

def db0 : DB := { parts := [p0], revisions := [], audit := [] }

/-- Witness for C1: on the concrete one-part database the checkout succeeds
and records holder 7, tick 5 and station "ST1". -/
theorem C1_checkout_exclusive_witness :
    (checkout_part db0 1 7 "ST1" 5).2 = true
    ∧ (checkout_part db0 1 7 "ST1" 5).1.parts.find? (fun q => q.id = 1)
        = some (co_upd 7 5 "ST1" p0) := by
  have h := C1_checkout_exclusive db0 1 7 "ST1" 5 p0 rfl
  exact ⟨h.1.mpr rfl, (h.2.1 rfl).1⟩

/-- A database whose single part carries the two-character revision label
"AA", reachable because `PartCreate` accepts any `part_revision` string. -/
def dbAA : DB :=
  { parts := [{ p0 with part_revision := "AA" }], revisions := [], audit := [] }

/-- Counterexample to C2: on a part whose revision label is "AA" the code
sets the new revision to the single character "B" (`chr(ord('A')+1)`),
not to "AB", the label obtained by incrementing the final character of the
current label in place as the claim states. -/
theorem C2_revise_counterexample :
    (bump_revision dbAA 1 7 "" 3).2 = some "B"
    ∧ (find_part (bump_revision dbAA 1 7 "" 3).1 1).map (fun p => p.part_revision)
        = some "B"
    ∧ next_rev_claimed "AA" = "AB"
    ∧ ("B" : String) ≠ "AB" := by
  refine ⟨by decide, by decide, by decide, by decide⟩

/-- C2 (amended): for every existing part, regardless of its release/lock
state, ReviseRevision sets the revision to the single character one code
point past the final character of the current label (default "B" on an
empty label, earlier characters discarded), clears `is_locked`, resets
`release_status` to Prototype, bumps `updated_at`, appends exactly one
snapshot row labeled with the prior revision, and returns the new label. -/
theorem C2_revise_behavior (db : DB) (pid uid : Nat) (desc : String) (now : Nat)
    (p : Part) (hp : find_part db pid = some p) :
    (bump_revision db pid uid desc now).2 = some (next_rev p.part_revision)
    ∧ find_part (bump_revision db pid uid desc now).1 pid
        = some (rev_upd (next_rev p.part_revision) now p)
    ∧ (bump_revision db pid uid desc now).1.revisions
        = db.revisions ++
            [{ part_id := pid, revision_label := p.part_revision,
               description := desc, changed_by := uid, snapshot := p }]
    ∧ (∀ q ∈ db.parts, q.id ≠ pid → q ∈ (bump_revision db pid uid desc now).1.parts) := by
  refine ⟨?_, ?_, ?_, ?_⟩
  · simp [bump_revision, hp]
  · have hu := find?_upd_parts db.parts pid (rev_upd (next_rev p.part_revision) now)
      (fun q => rfl)
    simp only [bump_revision, hp, find_part] at *
    simp [hu, hp]
  · simp [bump_revision, hp]
  · intro q hq hne
    simp only [bump_revision, hp]
    exact mem_upd_parts_of_ne _ _ _ q hq hne

/-- Witness for C2 (amended): revising the one-part database at revision
"A" yields revision "B" and one snapshot row labeled "A". -/
theorem C2_revise_behavior_witness :
    (bump_revision db0 1 7 "why" 9).2 = some "B"
    ∧ (bump_revision db0 1 7 "why" 9).1.revisions
        = [{ part_id := 1, revision_label := "A", description := "why",
             changed_by := 7, snapshot := p0 }] := by
  have h := C2_revise_behavior db0 1 7 "why" 9 p0 rfl
  exact ⟨h.1.trans (by decide), h.2.2.1.trans (by decide)⟩

/-- C8: Release locks the part, after which Update fails LockedState with
the database unchanged; Unrelease clears the lock, after which the same
Update succeeds and changes only name, description, level and
`updated_at`. -/
theorem C8_release_locks_update (db : DB) (pid uid uidu : Nat) (body : PartUpdate)
    (t1 t2 t3 : Nat) (p : Part) (hp : find_part db pid = some p) :
    find_part (release_part db pid uid t1) pid = some (rel_upd t1 p)
    ∧ (rel_upd t1 p).is_locked = true
    ∧ update_route (release_part db pid uid t1) pid body uidu t2
        = (release_part db pid uid t1, .error .LockedState)
    ∧ find_part (unrelease_part (release_part db pid uid t1) pid uid t2) pid
        = some (unrel_upd t2 p)
    ∧ (unrel_upd t2 p).is_locked = false
    ∧ (update_route (unrelease_part (release_part db pid uid t1) pid uid t2) pid
          body uidu t3).2
        = .ok { p with release_status := "Prototype", is_locked := false,
                       part_name := body.part_name, description := body.description,
                       part_level := body.part_level, updated_at := t3 } := by
  have hrel : find_part (release_part db pid uid t1) pid = some (rel_upd t1 p) := by
    have hu := find?_upd_parts db.parts pid (rel_upd t1) (fun q => rfl)
    simp only [find_part, release_part] at *
    simp [hu, hp]
  have hunrel : find_part (unrelease_part (release_part db pid uid t1) pid uid t2) pid
      = some (unrel_upd t2 (rel_upd t1 p)) := by
    have hu := find?_upd_parts (release_part db pid uid t1).parts pid (unrel_upd t2)
      (fun q => rfl)
    simp only [find_part, unrelease_part] at *
    simp [hu, hrel]
  have heq : unrel_upd t2 (rel_upd t1 p) = unrel_upd t2 p := rfl
  refine ⟨hrel, rfl, ?_, heq ▸ hunrel, rfl, ?_⟩
  · simp [update_route, hrel, rel_upd]
  · have hupd : find_part
        (update_part (unrelease_part (release_part db pid uid t1) pid uid t2) pid
          body uidu t3) pid = some (upd_upd body t3 (unrel_upd t2 (rel_upd t1 p))) := by
      have hu := find?_upd_parts
        (unrelease_part (release_part db pid uid t1) pid uid t2).parts pid
        (upd_upd body t3) (fun q => rfl)
      simp only [find_part, update_part] at *
      simp [hu, hunrel]
    simp [update_route, hunrel, unrel_upd, hupd]
    rfl

/-- Witness for C8 at the concrete one-part database. -/
theorem C8_release_locks_update_witness :
    update_route (release_part db0 1 7 1) 1 ⟨"N2", "D2", "L2"⟩ 8 2
      = (release_part db0 1 7 1, .error .LockedState)
    ∧ (update_route (unrelease_part (release_part db0 1 7 1) 1 7 2) 1
         ⟨"N2", "D2", "L2"⟩ 8 3).2
        = .ok { p0 with release_status := "Prototype", is_locked := false,
                        part_name := "N2", description := "D2",
                        part_level := "L2", updated_at := 3 } := by
  have h := C8_release_locks_update db0 1 7 8 ⟨"N2", "D2", "L2"⟩ 1 2 3 p0 rfl
  exact ⟨h.2.2.1, h.2.2.2.2.2⟩

/-! ### Part-number normalization (`models.PartCreate.pn_not_empty`)

`v.strip().upper()` is embedded over the character list of the string:
`upChar` is ASCII uppercasing, `isWS` the whitespace test used by strip. -/

/-- ASCII uppercasing of one character (`str.upper` restricted to the
ASCII part numbers the system uses). -/
def upChar (c : Char) : Char :=
  if 97 ≤ c.toNat ∧ c.toNat ≤ 122 then Char.ofNat (c.toNat - 32) else c

/-- `str.upper`. -/
def strUpper (s : String) : String := String.mk (s.data.map upChar)

/-- ASCII whitespace, as stripped by `str.strip`. -/
def isWS (c : Char) : Bool :=
  decide (c.toNat = 32 ∨ c.toNat = 9 ∨ c.toNat = 10 ∨ c.toNat = 11 ∨
          c.toNat = 12 ∨ c.toNat = 13)

/-- `str.strip` on a character list: drop whitespace from both ends. -/
def trimChars (l : List Char) : List Char :=
  ((l.dropWhile isWS).reverse.dropWhile isWS).reverse

/-- `str.strip`. -/
def strTrim (s : String) : String := String.mk (trimChars s.data)

/-- The `PartCreate.pn_not_empty` validator: reject a blank part number,
otherwise return it trimmed and uppercased. -/
def pn_normalize (raw : String) : Option String :=
  if strTrim raw = "" then none else some (strUpper (strTrim raw))

/-- Body of a part creation request (`models.PartCreate`). -/
structure PartCreate where
  part_number : String
  part_name : String
  part_revision : String
  description : String
  part_level : String
deriving Repr, DecidableEq

/-- The `/api/parts` POST route (`parts_router.create_part`) combined with
the validator and `Database.create_part`: 409 Conflict when
`get_part_by_number` finds the normalized number, otherwise insert a fresh
row (id modelled as max id + 1 for SQLite autoincrement; Prototype/unlocked
defaults are the schema column defaults described by the spec). -/
def create_route (db : DB) (body : PartCreate) (user_id now : Nat) :
    DB × Except ApiError Part :=
  match pn_normalize body.part_number with
  | none => (db, .error .ValidationError)
  | some pn =>
    if (db.parts.find? (fun p => p.part_number = pn)).isSome then (db, .error .Conflict)
    else
      let nid := (db.parts.map (fun p => p.id)).foldr max 0 + 1
      let part : Part :=
        { id := nid, part_number := pn, part_name := body.part_name,
          part_revision := body.part_revision, description := body.description,
          part_level := body.part_level, release_status := "Prototype",
          is_locked := false, checked_out_by := none, checked_out_at := none,
          checked_out_station := none, created_by := user_id,
          created_at := now, updated_at := now }
      ({ db with
           parts := db.parts ++ [part],
           audit := db.audit ++
             [{ user_id := user_id, action := "create_part", entity_type := "part",
                entity_id := some nid, detail := [("part_number", pn)] }] },
       .ok part)

/-- `Database.delete_part`: hard delete plus audit. -/
def delete_part (db : DB) (part_id user_id : Nat) : DB :=
  { db with
      parts := db.parts.filter (fun p => ¬ p.id = part_id),
      audit := db.audit ++
        [{ user_id := user_id, action := "delete_part", entity_type := "part",
           entity_id := some part_id, detail := [] }] }

/-- A stored part number is already trimmed, uppercased and non-blank. -/
def pn_normal (s : String) : Prop :=
  strUpper s = s ∧ strTrim s = s ∧ s ≠ ""

/-- The case-insensitive uniqueness invariant on the parts table. -/
def pn_inv (db : DB) : Prop :=
  (∀ p ∈ db.parts, pn_normal p.part_number)
  ∧ db.parts.Pairwise (fun p q => strUpper p.part_number ≠ strUpper q.part_number)

theorem toNat_ofNat_valid (n : Nat) (h : n.isValidChar) : (Char.ofNat n).toNat = n := by
  unfold Char.ofNat
  rw [dif_pos h]
  unfold Char.ofNatAux Char.toNat
  rfl

theorem toNat_upChar_lower {c : Char} (h : 97 ≤ c.toNat ∧ c.toNat ≤ 122) :
    (upChar c).toNat = c.toNat - 32 := by
  unfold upChar
  rw [if_pos h]
  exact toNat_ofNat_valid _ (Or.inl (by omega))

theorem ws_upChar (c : Char) : isWS (upChar c) = isWS c := by
  by_cases h : 97 ≤ c.toNat ∧ c.toNat ≤ 122
  · unfold isWS
    rw [toNat_upChar_lower h, decide_eq_decide]
    omega
  · unfold upChar
    rw [if_neg h]

theorem upChar_idem (c : Char) : upChar (upChar c) = upChar c := by
  by_cases h : 97 ≤ c.toNat ∧ c.toNat ≤ 122
  · have h1 : (Char.ofNat (c.toNat - 32)).toNat = c.toNat - 32 :=
      toNat_ofNat_valid _ (Or.inl (by omega))
    unfold upChar
    rw [if_pos h, if_neg (by rw [h1]; omega)]
  · unfold upChar
    rw [if_neg h, if_neg h]

theorem head?_dropWhile_not {α : Type} (p : α → Bool) (l : List α) :
    ∀ x, (l.dropWhile p).head? = some x → p x = false := by
  induction l with
  | nil => intro x hx; simp at hx
  | cons a t ih =>
    intro x hx
    rw [List.dropWhile_cons] at hx
    by_cases h : p a
    · rw [if_pos h] at hx
      exact ih x hx
    · rw [if_neg h] at hx
      simp only [List.head?_cons, Option.some.injEq] at hx
      subst hx
      cases hpa : p a
      · rfl
      · exact absurd hpa h

theorem dropWhile_eq_self_of_head {α : Type} (p : α → Bool) (l : List α)
    (h : ∀ x, l.head? = some x → p x = false) : l.dropWhile p = l := by
  cases l with
  | nil => rfl
  | cons a t =>
    have ha : p a = false := h a rfl
    rw [List.dropWhile_cons, if_neg (by simp [ha])]

theorem getLast?_dropWhile {α : Type} (p : α → Bool) (l : List α)
    (h : l.dropWhile p ≠ []) : (l.dropWhile p).getLast? = l.getLast? := by
  induction l with
  | nil => simp at h
  | cons a t ih =>
    rw [List.dropWhile_cons] at h ⊢
    by_cases hp : p a
    · rw [if_pos hp] at h ⊢
      have ht : t ≠ [] := by
        intro he
        rw [he] at h
        simp at h
      cases t with
      | nil => exact absurd rfl ht
      | cons b t' => rw [ih h, List.getLast?_cons_cons]
    · rw [if_neg hp]

theorem trimChars_idem (l : List Char) : trimChars (trimChars l) = trimChars l := by
  have expand : ∀ m : List Char,
      trimChars m = ((m.dropWhile isWS).reverse.dropWhile isWS).reverse := fun m => rfl
  have h1 : (trimChars l).dropWhile isWS = trimChars l := by
    apply dropWhile_eq_self_of_head
    intro x hx
    rw [expand l, List.head?_reverse] at hx
    by_cases hD : (l.dropWhile isWS).reverse.dropWhile isWS = []
    · rw [hD] at hx; simp at hx
    · rw [getLast?_dropWhile isWS _ hD, List.getLast?_reverse] at hx
      exact head?_dropWhile_not isWS l x hx
  have h2 : ((l.dropWhile isWS).reverse.dropWhile isWS).dropWhile isWS
      = (l.dropWhile isWS).reverse.dropWhile isWS :=
    dropWhile_eq_self_of_head _ _ (fun x hx => head?_dropWhile_not isWS _ x hx)
  rw [expand (trimChars l), h1, expand l, List.reverse_reverse, h2]

theorem trimChars_map_upChar (l : List Char) :
    trimChars (l.map upChar) = (trimChars l).map upChar := by
  have hws : (isWS ∘ upChar) = isWS := funext ws_upChar
  unfold trimChars
  rw [List.dropWhile_map, hws, ← List.map_reverse, List.dropWhile_map, hws, ← List.map_reverse]

theorem strUpper_idem (s : String) : strUpper (strUpper s) = strUpper s := by
  unfold strUpper
  refine congrArg String.mk ?_
  show (s.data.map upChar).map upChar = s.data.map upChar
  rw [List.map_map]
  exact List.map_congr_left (fun a _ => upChar_idem a)

theorem strUpper_strTrim_comm (s : String) :
    strUpper (strTrim s) = strTrim (strUpper s) := by
  unfold strUpper strTrim
  exact congrArg String.mk (trimChars_map_upChar s.data).symm

theorem strTrim_idem (s : String) : strTrim (strTrim s) = strTrim s :=
  congrArg String.mk (trimChars_idem s.data)

theorem strUpper_ne_empty {s : String} (h : s ≠ "") : strUpper s ≠ "" := by
  intro he
  apply h
  have hd : (strUpper s).data = ([] : List Char) := by rw [he]
  unfold strUpper at hd
  simp only [List.map_eq_nil_iff] at hd
  exact String.ext hd

/-- Rewriting rows with a part_number-preserving function keeps `pn_inv`. -/
theorem pn_inv_upd_parts (l : List Part) (pid : Nat) (f : Part → Part)
    (hf : ∀ q, (f q).part_number = q.part_number)
    (h1 : ∀ p ∈ l, pn_normal p.part_number)
    (h2 : l.Pairwise (fun p q => strUpper p.part_number ≠ strUpper q.part_number)) :
    (∀ p ∈ upd_parts l pid f, pn_normal p.part_number)
    ∧ (upd_parts l pid f).Pairwise
        (fun p q => strUpper p.part_number ≠ strUpper q.part_number) := by
  have hg : ∀ p : Part, ((fun p => if p.id = pid then f p else p) p).part_number
      = p.part_number := by
    intro p
    by_cases h : p.id = pid
    · simp [h, hf]
    · simp [h]
  constructor
  · intro p hp
    unfold upd_parts at hp
    obtain ⟨q, hq, hqe⟩ := List.mem_map.mp hp
    have hqpn : p.part_number = q.part_number := by
      rw [← hqe]
      exact hg q
    rw [hqpn]
    exact h1 q hq
  · unfold upd_parts
    rw [List.pairwise_map]
    refine h2.imp ?_
    intro a b hab
    rw [hg a, hg b]
    exact hab

/-- C7: part_number is unique case-insensitively.  Create normalizes
(trim + uppercase) before storing; a create whose raw part_number matches a
stored one ignoring case returns Conflict without touching the database;
and the invariant (stored numbers normalized, pairwise distinct ignoring
case) is preserved by Create and by every other part operation, none of
which writes part_number. -/
theorem C7_part_number_unique_ci (db : DB) (h : pn_inv db) :
    (∀ body uid now, pn_inv (create_route db body uid now).1)
    ∧ (∀ (body : PartCreate) uid now p, p ∈ db.parts →
         strUpper body.part_number = strUpper p.part_number →
         create_route db body uid now = (db, .error .Conflict))
    ∧ (∀ body uid now r part, create_route db body uid now = (r, .ok part) →
         part.part_number = strUpper (strTrim body.part_number))
    ∧ (∀ pid uid station now, pn_inv (checkout_part db pid uid station now).1)
    ∧ (∀ pid uid, pn_inv (checkin_part db pid uid))
    ∧ (∀ pid uid now, pn_inv (release_part db pid uid now))
    ∧ (∀ pid uid now, pn_inv (unrelease_part db pid uid now))
    ∧ (∀ pid body uid now, pn_inv (update_part db pid body uid now))
    ∧ (∀ pid uid desc now, pn_inv (bump_revision db pid uid desc now).1)
    ∧ (∀ pid uid, pn_inv (delete_part db pid uid)) := by
  obtain ⟨h1, h2⟩ := h
  refine ⟨?_, ?_, ?_, ?_, ?_, ?_, ?_, ?_, ?_, ?_⟩
  · -- Create preserves the invariant
    intro body uid now
    by_cases hb : strTrim body.part_number = ""
    · simp [create_route, pn_normalize, hb]; exact ⟨h1, h2⟩
    · simp only [create_route, pn_normalize, if_neg hb]
      by_cases hf : (db.parts.find? (fun p =>
          p.part_number = strUpper (strTrim body.part_number))).isSome
      · simp only [hf, if_true]; exact ⟨h1, h2⟩
      · simp only [hf, if_false, Bool.false_eq_true]
        have hnone : ∀ p ∈ db.parts,
            p.part_number ≠ strUpper (strTrim body.part_number) := by
          intro p hp he
          exact hf (List.find?_isSome.mpr ⟨p, hp, by simp [he]⟩)
        constructor
        · intro p hp
          rw [List.mem_append] at hp
          rcases hp with hp | hp
          · exact h1 p hp
          · simp only [List.mem_singleton] at hp
            subst hp
            show pn_normal (strUpper (strTrim body.part_number))
            refine ⟨strUpper_idem _, ?_, strUpper_ne_empty hb⟩
            rw [← strUpper_strTrim_comm, strTrim_idem]
        · rw [List.pairwise_append]
          refine ⟨h2, List.pairwise_singleton _ _, ?_⟩
          intro p hp q hq
          simp only [List.mem_singleton] at hq
          subst hq
          show strUpper p.part_number ≠ strUpper (strUpper (strTrim body.part_number))
          rw [strUpper_idem]
          intro he
          apply hnone p hp
          rw [← (h1 p hp).1, he]
  · -- a case-insensitive duplicate returns Conflict
    intro body uid now p hp hci
    have hpn := h1 p hp
    have hup : strUpper body.part_number = p.part_number := by rw [hci, hpn.1]
    have hb : strTrim body.part_number ≠ "" := by
      intro he
      apply hpn.2.2
      have : strTrim (strUpper body.part_number) = "" := by
        rw [← strUpper_strTrim_comm, he]
        rfl
      rw [← hpn.2.1, ← hup, this]
    have hkey : strUpper (strTrim body.part_number) = p.part_number := by
      rw [strUpper_strTrim_comm, hup, hpn.2.1]
    have hfind : (db.parts.find? (fun q =>
        q.part_number = strUpper (strTrim body.part_number))).isSome := by
      exact List.find?_isSome.mpr ⟨p, hp, by simp [hkey]⟩
    simp [create_route, pn_normalize, if_neg hb, hfind]
  · -- a successful create stores the trimmed, uppercased number
    intro body uid now r part hcr
    by_cases hb : strTrim body.part_number = ""
    · simp [create_route, pn_normalize, hb] at hcr
    · simp only [create_route, pn_normalize, if_neg hb] at hcr
      by_cases hf : (db.parts.find? (fun p =>
          p.part_number = strUpper (strTrim body.part_number))).isSome
      · simp [hf] at hcr
      · simp only [hf, if_false, Bool.false_eq_true, Prod.mk.injEq] at hcr
        have := hcr.2
        simp only [Except.ok.injEq] at this
        rw [← this]
  · intro pid uid station now
    cases hfp : find_part db pid with
    | none =>
      simp only [checkout_part, hfp]
      exact ⟨h1, h2⟩
    | some row =>
      by_cases hcb : row.checked_out_by = none
      · simp only [checkout_part, hfp, hcb, ne_eq, not_true_eq_false, Bool.false_eq_true,
          reduceIte]
        exact pn_inv_upd_parts db.parts pid _ (fun q => rfl) h1 h2
      · simp only [checkout_part, hfp, ne_eq, hcb, not_false_eq_true, reduceIte]
        exact ⟨h1, h2⟩
  · intro pid uid
    exact pn_inv_upd_parts db.parts pid _ (fun q => rfl) h1 h2
  · intro pid uid now
    exact pn_inv_upd_parts db.parts pid _ (fun q => rfl) h1 h2
  · intro pid uid now
    exact pn_inv_upd_parts db.parts pid _ (fun q => rfl) h1 h2
  · intro pid body uid now
    exact pn_inv_upd_parts db.parts pid _ (fun q => rfl) h1 h2
  · intro pid uid desc now
    unfold bump_revision
    cases hfp : find_part db pid with
    | none => exact ⟨h1, h2⟩
    | some part => exact pn_inv_upd_parts db.parts pid _ (fun q => rfl) h1 h2
  · intro pid uid
    refine ⟨?_, ?_⟩
    · intro p hp
      exact h1 p (List.mem_of_mem_filter hp)
    · exact h2.sublist (List.filter_sublist _)

/-- A one-part database with a letter-bearing part number for C7. -/
def dbC7 : DB :=
  { parts := [{ p0 with part_number := "ABC-1" }], revisions := [], audit := [] }

/-- Witness for C7: on the concrete database, creating "abc-1" (a
case-insensitive duplicate of the stored "ABC-1") answers Conflict and
leaves the database unchanged, while the invariant holds after a release. -/
theorem C7_part_number_unique_ci_witness :
    create_route dbC7 ⟨"abc-1", "N", "A", "", ""⟩ 7 1 = (dbC7, .error .Conflict)
    ∧ pn_inv (release_part dbC7 1 7 2) := by
  have hinv : pn_inv dbC7 := by
    constructor
    · intro p hp
      simp only [dbC7, List.mem_singleton] at hp
      rw [hp]
      exact ⟨by decide, by decide, by decide⟩
    · simp [dbC7]
  have h := C7_part_number_unique_ci dbC7 hinv
  refine ⟨h.2.1 ⟨"abc-1", "N", "A", "", ""⟩ 7 1 { p0 with part_number := "ABC-1" }
    (by simp [dbC7]) (by decide), ?_⟩
  exact h.2.2.2.2.2.1 1 7 2

/-! ### BOM graph traversal (`Database.get_bom_flat` / `Database.get_tree`) -/

/-- A row of `part_relationships`.  `quantity` is a REAL in the schema but
is only stored and reported, never computed with, so it is modelled as an
opaque `Nat` token. -/
structure Edge where
  parent_part_id : Nat
  child_part_id : Nat
  quantity : Nat
  relationship_type : String
deriving Repr, DecidableEq

/-- A row of the recursive CTE `bom(part_id, depth, path)`. -/
structure BomRow where
  part_id : Nat
  depth : Nat
  path : String
deriving Repr, DecidableEq

/-- A row of the final `get_bom_flat` SELECT.  The SQL sorts by `b.path`
without emitting it; the model keeps the path in the row so ordering can be
stated. -/
structure FlatRow where
  depth : Nat
  quantity : Option Nat
  relationship_type : Option String
  id : Nat
  part_number : String
  part_name : String
  part_revision : String
  release_status : String
  path : String
deriving Repr, DecidableEq

/-- `part_relationships` rows whose parent is `pid` (the recursive join of
the CTE). -/
def bomChildren (edges : List Edge) (pid : Nat) : List Edge :=
  edges.filter (fun e => e.parent_part_id = pid)

/-- The rows the recursive CTE generates from one seed row
`(pid, d, path)`.  The SQL guard `b.depth < 20` appears as the fuel
`20 - depth`, consumed one unit per level, so a seed at depth `d` expands
only while `d < 20`. -/
def bomCTE (edges : List Edge) : Nat → Nat → Nat → String → List BomRow
  | 0, pid, d, path => [⟨pid, d, path⟩]
  | fuel + 1, pid, d, path =>
      ⟨pid, d, path⟩ ::
        (bomChildren edges pid).flatMap (fun e =>
          bomCTE edges fuel e.child_part_id (d + 1)
            (path ++ "/" ++ toString e.child_part_id))

/-- The final SELECT of `get_bom_flat` for one CTE row: inner-join `parts`
(no part row, no output), then LEFT JOIN every relationship whose child is
this part for the quantity/type columns. -/
def joinRow (edges : List Edge) (parts : List Part) (b : BomRow) : List FlatRow :=
  match parts.find? (fun p => p.id = b.part_id) with
  | none => []
  | some p =>
    match edges.filter (fun e => e.child_part_id = b.part_id) with
    | [] => [⟨b.depth, none, none, p.id, p.part_number, p.part_name,
              p.part_revision, p.release_status, b.path⟩]
    | es => es.map (fun e =>
        ⟨b.depth, some e.quantity, some e.relationship_type, p.id, p.part_number,
         p.part_name, p.part_revision, p.release_status, b.path⟩)

/-- Byte-wise (SQLite BINARY collation) string comparison on char lists. -/
def charListLe : List Char → List Char → Bool
  | [], _ => true
  | _ :: _, [] => false
  | a :: as, b :: bs =>
    if a.toNat < b.toNat then true
    else if b.toNat < a.toNat then false
    else charListLe as bs

/-- The `ORDER BY b.path` comparison. -/
def pathLe (a b : FlatRow) : Bool := charListLe a.path.data b.path.data

/-- Insertion step of the sort modelling SQL ORDER BY. -/
def insertSorted {α : Type} (le : α → α → Bool) (x : α) : List α → List α
  | [] => [x]
  | y :: ys => if le x y then x :: y :: ys else y :: insertSorted le x ys

/-- Insertion sort modelling SQL ORDER BY (stable; the order of equal keys
is unspecified in SQL and never relied upon). -/
def sortBy {α : Type} (le : α → α → Bool) : List α → List α
  | [] => []
  | x :: xs => insertSorted le x (sortBy le xs)

/-- `Database.get_bom_flat`: run the depth-bounded CTE from the root, keep
the rows below the root (`b.depth > 0`), join parts and linking edges, and
sort by the path key. -/
def get_bom_flat (edges : List Edge) (parts : List Part) (root_part_id : Nat) :
    List FlatRow :=
  sortBy pathLe
    (((bomCTE edges 20 root_part_id 0 (toString root_part_id)).filter
        (fun b => 0 < b.depth)).flatMap (joinRow edges parts))

/-- `Database.get_children`: direct children joined with their part rows,
ordered by child part_number. -/
def get_children (edges : List Edge) (parts : List Part) (pid : Nat) :
    List (Edge × Part) :=
  sortBy (fun a b => charListLe a.2.part_number.data b.2.part_number.data)
    ((bomChildren edges pid).filterMap
      (fun e => (parts.find? (fun p => p.id = e.child_part_id)).map (fun p => (e, p))))

/-- The nested dict produced by `Database.get_tree`. -/
inductive TreeNode where
  | mk (id : Nat) (part_number part_name part_revision release_status : String)
       (depth : Nat) (children : List TreeNode)
deriving Repr

def TreeNode.depth : TreeNode → Nat
  | .mk _ _ _ _ _ d _ => d

def TreeNode.children : TreeNode → List TreeNode
  | .mk _ _ _ _ _ _ cs => cs

/-- `Database.get_tree` with explicit fuel.  The Python recursion is on
`depth` with the guard `depth < 20`; the fuel is kept equal to
`21 - depth`, which stays positive exactly while the source recurses, so
the `fuel = 0` branch is unreachable from `get_tree`.  Children are found
in `parts` by construction (`get_children` inner-joins them), so the
`filterMap` drops nothing the source would keep. -/
def getTreeAux (edges : List Edge) (parts : List Part) :
    Nat → Nat → Nat → Option TreeNode
  | 0, _, _ => none
  | fuel + 1, pid, depth =>
    match parts.find? (fun p => p.id = pid) with
    | none => none
    | some p =>
      some (.mk pid p.part_number p.part_name p.part_revision p.release_status depth
        (if depth < 20 then
           (get_children edges parts pid).filterMap
             (fun c => getTreeAux edges parts fuel c.2.id (depth + 1))
         else []))

/-- `Database.get_tree`. -/
def get_tree (edges : List Edge) (parts : List Part) (pid depth : Nat) :
    Option TreeNode :=
  getTreeAux edges parts (21 - depth) pid depth

mutual

/-- All nodes of a tree, the node itself included. -/
def treeNodesT : TreeNode → List TreeNode
  | .mk i pn pna pr st d cs => .mk i pn pna pr st d cs :: treeNodesF cs

/-- All nodes of a forest. -/
def treeNodesF : List TreeNode → List TreeNode
  | [] => []
  | c :: rest => treeNodesT c ++ treeNodesF rest

end

theorem mem_treeNodesF (cs : List TreeNode) (n : TreeNode) :
    n ∈ treeNodesF cs ↔ ∃ c ∈ cs, n ∈ treeNodesT c := by
  induction cs with
  | nil => simp [treeNodesF]
  | cons c rest ih =>
    simp only [treeNodesF, List.mem_append, ih, List.mem_cons]
    constructor
    · rintro (h | ⟨c', hc', hn⟩)
      · exact ⟨c, Or.inl rfl, h⟩
      · exact ⟨c', Or.inr hc', hn⟩
    · rintro ⟨c', hc' | hc', hn⟩
      · subst hc'; exact Or.inl hn
      · exact Or.inr ⟨c', hc', hn⟩

theorem bomCTE_depth_le (edges : List Edge) (fuel : Nat) :
    ∀ pid d path r, r ∈ bomCTE edges fuel pid d path → r.depth ≤ d + fuel := by
  induction fuel with
  | zero =>
    intro pid d path r hr
    simp only [bomCTE, List.mem_singleton] at hr
    subst hr
    simp
  | succ n ih =>
    intro pid d path r hr
    simp only [bomCTE, List.mem_cons, List.mem_flatMap] at hr
    rcases hr with rfl | ⟨e, _, hre⟩
    · simp
    · have := ih e.child_part_id (d + 1) _ r hre
      omega

theorem joinRow_fields (edges : List Edge) (parts : List Part) (b : BomRow) :
    ∀ r ∈ joinRow edges parts b, r.depth = b.depth ∧ r.path = b.path ∧ r.id = b.part_id := by
  intro r hr
  unfold joinRow at hr
  split at hr
  · simp at hr
  · rename_i p hp
    have hpid : p.id = b.part_id := by
      have := List.find?_some hp
      simpa using this
    split at hr
    · simp only [List.mem_singleton] at hr
      subst hr
      exact ⟨rfl, rfl, hpid⟩
    · simp only [List.mem_map] at hr
      obtain ⟨e', _, he'⟩ := hr
      subst he'
      exact ⟨rfl, rfl, hpid⟩

theorem mem_insertSorted {α : Type} (le : α → α → Bool) (x : α) (l : List α) (y : α) :
    y ∈ insertSorted le x l ↔ y = x ∨ y ∈ l := by
  induction l with
  | nil => simp [insertSorted]
  | cons z zs ih =>
    unfold insertSorted
    by_cases h : le x z
    · simp [h]
    · simp only [h, Bool.false_eq_true, if_false, List.mem_cons, ih]
      tauto

theorem insertSorted_perm {α : Type} (le : α → α → Bool) (x : α) (l : List α) :
    (insertSorted le x l).Perm (x :: l) := by
  induction l with
  | nil => exact List.Perm.refl _
  | cons z zs ih =>
    unfold insertSorted
    by_cases h : le x z
    · simp only [h, if_true]
      exact List.Perm.refl _
    · simp only [h, Bool.false_eq_true, if_false]
      exact (ih.cons z).trans (List.Perm.swap x z zs)

theorem sortBy_perm {α : Type} (le : α → α → Bool) (l : List α) :
    (sortBy le l).Perm l := by
  induction l with
  | nil => exact List.Perm.refl _
  | cons x xs ih =>
    exact (insertSorted_perm le x (sortBy le xs)).trans (ih.cons x)

theorem getTreeAux_depth_le (edges : List Edge) (parts : List Part) :
    ∀ fuel pid depth t, depth ≤ 20 →
      getTreeAux edges parts fuel pid depth = some t →
      ∀ n ∈ treeNodesT t, n.depth ≤ 20 := by
  intro fuel
  induction fuel with
  | zero => intro pid depth t _ ht; simp [getTreeAux] at ht
  | succ m ih =>
    intro pid depth t hd ht
    simp only [getTreeAux] at ht
    cases hp : parts.find? (fun p => p.id = pid) with
    | none => rw [hp] at ht; simp at ht
    | some p =>
      rw [hp] at ht
      simp only [Option.some.injEq] at ht
      subst ht
      intro n hn
      simp only [treeNodesT, List.mem_cons] at hn
      rcases hn with rfl | hn
      · simpa [TreeNode.depth] using hd
      · by_cases h20 : depth < 20
        · rw [if_pos h20] at hn
          rw [mem_treeNodesF] at hn
          obtain ⟨c, hc, hnc⟩ := hn
          rw [List.mem_filterMap] at hc
          obtain ⟨cp, _, hcp⟩ := hc
          exact ih cp.2.id (depth + 1) c (by omega) hcp n hnc
        · rw [if_neg h20] at hn
          simp [treeNodesF] at hn

/-- C9: the traversal is total on every finite edge set, cyclic ones
included, because it follows paths only up to the fixed depth bound: every
row of FlatBOM and every node of Tree has depth at most 20.  (`bomCTE` and
`getTreeAux` are total Lean functions evaluated on arbitrary edge lists;
no cycle detection is modelled because the source performs none.) -/
theorem C9_traversal_depth_bounded (edges : List Edge) (parts : List Part) (root : Nat) :
    (∀ r ∈ get_bom_flat edges parts root, r.depth ≤ 20)
    ∧ (∀ t, get_tree edges parts root 0 = some t →
        ∀ n ∈ treeNodesT t, n.depth ≤ 20) := by
  constructor
  · intro r hr
    unfold get_bom_flat at hr
    have hr' := (sortBy_perm pathLe _).mem_iff.mp hr
    rw [List.mem_flatMap] at hr'
    obtain ⟨b, hb, hrb⟩ := hr'
    have hdep := bomCTE_depth_le edges 20 root 0 _ b (List.mem_of_mem_filter hb)
    have := (joinRow_fields edges parts b r hrb).1
    omega
  · intro t ht
    exact getTreeAux_depth_le edges parts 21 root 0 t (by omega) ht

/-- A self-loop: part 1 is its own child — a cyclic edge set. -/
def cycE : List Edge := [⟨1, 1, 1, "assembly"⟩]

/-- Witness for C9: on the cyclic one-part BOM both traversals evaluate and
every produced depth is at most 20. -/
theorem C9_traversal_depth_bounded_witness :
    (∀ r ∈ get_bom_flat cycE [p0] 1, r.depth ≤ 20)
    ∧ (∀ n ∈ treeNodesT ((get_tree cycE [p0] 1 0).getD (.mk 0 "" "" "" "" 0 [])),
        n.depth ≤ 20) := by
  have h := C9_traversal_depth_bounded cycE [p0] 1
  exact ⟨h.1, h.2 _ rfl⟩

/-- Parts for the C3 counterexample: the child with the larger id has the
alphabetically smaller part_number. -/
def c3P : List Part :=
  [{ p0 with id := 1, part_number := "ROOT" },
   { p0 with id := 2, part_number := "Z-PART" },
   { p0 with id := 3, part_number := "A-PART" }]

def c3E : List Edge := [⟨1, 2, 1, "assembly"⟩, ⟨1, 3, 1, "assembly"⟩]

/-- Counterexample to C3: on the 2-level tree 1 → {2 ("Z-PART"),
3 ("A-PART")} the output is ordered by the id path key ("1/2" < "1/3"), so
"Z-PART" precedes "A-PART" at the same level even though "Z-PART" is
greater in part_number order — the output is not ordered by part_number
within a level as claimed. -/
theorem C3_flat_bom_counterexample :
    ((get_bom_flat c3E c3P 1).map (fun r => (r.part_number, r.depth)))
      = [("Z-PART", 1), ("A-PART", 1)]
    ∧ charListLe "Z-PART".data "A-PART".data = false := by
  exact ⟨by decide, by decide⟩

/-! ### Edge sets forming a tree below a root

`SpecTree` describes an arbitrary tree of part ids, each non-root node
carrying the quantity and relationship type of the edge attaching it to
its parent; `treeEdgesT` flattens it into the relationship rows such a
tree stores.  The amended C3 is proved for every such edge set. -/

inductive SpecTree where
  | node (id : Nat) (qty : Nat) (rtype : String) (kids : List SpecTree)
deriving Repr

def SpecTree.rootId : SpecTree → Nat
  | .node i _ _ _ => i

def SpecTree.qtyOf : SpecTree → Nat
  | .node _ q _ _ => q

def SpecTree.rtypeOf : SpecTree → String
  | .node _ _ r _ => r

def SpecTree.kids : SpecTree → List SpecTree
  | .node _ _ _ ks => ks

/-- The relationship row attaching kid `k` to the node with id `i`. -/
def kidEdge (i : Nat) (k : SpecTree) : Edge :=
  ⟨i, k.rootId, k.qtyOf, k.rtypeOf⟩

/-- The relationship rows from node `i` to each of its kids, in order. -/
def kidEdges (i : Nat) : List SpecTree → List Edge
  | [] => []
  | k :: rest => kidEdge i k :: kidEdges i rest

mutual

/-- All relationship rows stored for a tree. -/
def treeEdgesT : SpecTree → List Edge
  | .node i _ _ ks => kidEdges i ks ++ treeEdgesF ks

/-- All relationship rows stored for a forest. -/
def treeEdgesF : List SpecTree → List Edge
  | [] => []
  | k :: rest => treeEdgesT k ++ treeEdgesF rest

end

mutual

/-- All part ids of a tree, root first. -/
def treeIdsT : SpecTree → List Nat
  | .node i _ _ ks => i :: treeIdsF ks

/-- All part ids of a forest. -/
def treeIdsF : List SpecTree → List Nat
  | [] => []
  | k :: rest => treeIdsT k ++ treeIdsF rest

end

mutual

/-- Height of a tree: edge levels below the root. -/
def hgtT : SpecTree → Nat
  | .node _ _ _ ks => hgtF ks

/-- One more than the largest kid height, zero for an empty forest. -/
def hgtF : List SpecTree → Nat
  | [] => 0
  | k :: rest => max (hgtT k + 1) (hgtF rest)

end

mutual

/-- The expected FlatBOM rows of a node `k` attached below a parent whose
row path is `path` and whose depth is `d`: one row for `k` itself (present
when its part row exists) followed by the rows of its subtree, in
depth-first kid order. -/
def specRowsK (parts : List Part) : SpecTree → Nat → String → List FlatRow
  | .node i q r ks, d, path =>
    (match parts.find? (fun p => p.id = i) with
     | none => []
     | some p => [⟨d + 1, some q, some r, p.id, p.part_number, p.part_name,
                   p.part_revision, p.release_status, path ++ "/" ++ toString i⟩])
    ++ specRowsF parts ks (d + 1) (path ++ "/" ++ toString i)

/-- Expected FlatBOM rows of a forest of kids. -/
def specRowsF (parts : List Part) : List SpecTree → Nat → String → List FlatRow
  | [], _, _ => []
  | k :: rest, d, path => specRowsK parts k d path ++ specRowsF parts rest d path

end

/-- `Sub s t`: `s` is `t` itself or a subtree of one of its kids. -/
inductive Sub : SpecTree → SpecTree → Prop where
  | refl (t : SpecTree) : Sub t t
  | kid {s c : SpecTree} {i q : Nat} {r : String} {ks : List SpecTree}
      (hc : c ∈ ks) (h : Sub s c) : Sub s (.node i q r ks)

/-- `a` is a strict ancestor of `b` in the tree `t` (by part id). -/
def isAncestorIn (t : SpecTree) (a b : Nat) : Prop :=
  ∃ s, Sub s t ∧ s.rootId = a ∧ b ∈ treeIdsF s.kids

theorem mem_kidEdges {i : Nat} :
    ∀ {ks : List SpecTree} {e}, e ∈ kidEdges i ks ↔ ∃ k ∈ ks, e = kidEdge i k := by
  intro ks
  induction ks with
  | nil => simp [kidEdges]
  | cons k rest ih =>
    intro e
    simp only [kidEdges, List.mem_cons, ih]
    constructor
    · rintro (rfl | ⟨k', hk', rfl⟩)
      · exact ⟨k, Or.inl rfl, rfl⟩
      · exact ⟨k', Or.inr hk', rfl⟩
    · rintro ⟨k', hk' | hk', rfl⟩
      · subst hk'; exact Or.inl rfl
      · exact Or.inr ⟨k', hk', rfl⟩

theorem mem_treeIdsF_of_mem {x : Nat} :
    ∀ {ks : List SpecTree} {c}, c ∈ ks → x ∈ treeIdsT c → x ∈ treeIdsF ks := by
  intro ks
  induction ks with
  | nil => intro c hc; simp at hc
  | cons k rest ih =>
    intro c hc hx
    simp only [treeIdsF, List.mem_append]
    rcases List.mem_cons.mp hc with rfl | hc
    · exact Or.inl hx
    · exact Or.inr (ih hc hx)

theorem rootId_mem_treeIdsT (t : SpecTree) : t.rootId ∈ treeIdsT t := by
  cases t with
  | node i q r ks => simp [treeIdsT, SpecTree.rootId]

theorem treeIds_sub_of_sub {s t : SpecTree} (h : Sub s t) :
    ∀ x ∈ treeIdsT s, x ∈ treeIdsT t := by
  induction h with
  | refl => intro x hx; exact hx
  | kid hc _ ih =>
    intro x hx
    simp only [treeIdsT, List.mem_cons]
    exact Or.inr (mem_treeIdsF_of_mem hc (ih x hx))

theorem rootId_mem_of_sub {s t : SpecTree} (h : Sub s t) : s.rootId ∈ treeIdsT t :=
  treeIds_sub_of_sub h s.rootId (rootId_mem_treeIdsT s)

mutual

theorem edge_mem_T : ∀ (t : SpecTree), ∀ e ∈ treeEdgesT t,
    e.parent_part_id ∈ treeIdsT t ∧ e.child_part_id ∈ treeIdsF t.kids
  | .node i q r ks => by
    intro e he
    simp only [treeEdgesT, List.mem_append] at he
    simp only [treeIdsT, SpecTree.kids, List.mem_cons]
    rcases he with he | he
    · rw [mem_kidEdges] at he
      obtain ⟨k, hk, rfl⟩ := he
      exact ⟨Or.inl rfl, mem_treeIdsF_of_mem hk (rootId_mem_treeIdsT k)⟩
    · have := edge_mem_F ks e he
      exact ⟨Or.inr this.1, this.2⟩

theorem edge_mem_F : ∀ (ks : List SpecTree), ∀ e ∈ treeEdgesF ks,
    e.parent_part_id ∈ treeIdsF ks ∧ e.child_part_id ∈ treeIdsF ks
  | [] => by intro e he; simp [treeEdgesF] at he
  | k :: rest => by
    intro e he
    simp only [treeEdgesF, List.mem_append] at he
    simp only [treeIdsF, List.mem_append]
    rcases he with he | he
    · have := edge_mem_T k e he
      refine ⟨Or.inl this.1, Or.inl ?_⟩
      cases k with
      | node i q r ks' =>
        simp only [treeIdsT, List.mem_cons]
        exact Or.inr (by simpa [SpecTree.kids] using this.2)
    · have := edge_mem_F rest e he
      exact ⟨Or.inr this.1, Or.inr this.2⟩

end

theorem nodupF_head {k : SpecTree} {rest : List SpecTree}
    (h : (treeIdsF (k :: rest)).Nodup) :
    (treeIdsT k).Nodup ∧ (treeIdsF rest).Nodup
    ∧ ∀ x ∈ treeIdsT k, x ∉ treeIdsF rest := by
  simp only [treeIdsF] at h
  rw [List.nodup_append] at h
  exact ⟨h.1, h.2.1, h.2.2⟩

theorem nodupT_node {i q : Nat} {r : String} {ks : List SpecTree}
    (h : (treeIdsT (.node i q r ks)).Nodup) :
    i ∉ treeIdsF ks ∧ (treeIdsF ks).Nodup := by
  simp only [treeIdsT] at h
  rw [List.nodup_cons] at h
  exact h

theorem nodupF_of_mem : ∀ {ks : List SpecTree} {c}, (treeIdsF ks).Nodup → c ∈ ks →
    (treeIdsT c).Nodup := by
  intro ks
  induction ks with
  | nil => intro c _ hc; simp at hc
  | cons k rest ih =>
    intro c hnd hc
    obtain ⟨h1, h2, _⟩ := nodupF_head hnd
    rcases List.mem_cons.mp hc with rfl | hc
    · exact h1
    · exact ih h2 hc

theorem hgtF_mem_le : ∀ {ks : List SpecTree} {c}, c ∈ ks → hgtT c + 1 ≤ hgtF ks := by
  intro ks
  induction ks with
  | nil => intro c hc; simp at hc
  | cons k rest ih =>
    intro c hc
    simp only [hgtF]
    rcases List.mem_cons.mp hc with rfl | hc
    · omega
    · have := ih hc
      omega

theorem hgtF_eq_zero {ks : List SpecTree} (h : hgtF ks = 0) : ks = [] := by
  cases ks with
  | nil => rfl
  | cons k rest => simp only [hgtF] at h; omega

theorem char_toNat_inj {x y : Char} (h : x.toNat = y.toNat) : x = y :=
  Char.ext (UInt32.ext h)

theorem charListLe_total : ∀ (a b : List Char),
    charListLe a b = true ∨ charListLe b a = true := by
  intro a
  induction a with
  | nil => intro b; exact Or.inl rfl
  | cons x xs ih =>
    intro b
    cases b with
    | nil => exact Or.inr rfl
    | cons y ys =>
      simp only [charListLe]
      rcases Nat.lt_trichotomy x.toNat y.toNat with h | h | h
      · left; rw [if_pos h]
      · rw [if_neg (by omega), if_neg (by omega), if_neg (by omega), if_neg (by omega)]
        exact ih ys
      · right; rw [if_pos h]

theorem charListLe_antisymm : ∀ {a b : List Char},
    charListLe a b = true → charListLe b a = true → a = b := by
  intro a
  induction a with
  | nil =>
    intro b h1 h2
    cases b with
    | nil => rfl
    | cons y ys => simp [charListLe] at h2
  | cons x xs ih =>
    intro b h1 h2
    cases b with
    | nil => simp [charListLe] at h1
    | cons y ys =>
      simp only [charListLe] at h1 h2
      rcases Nat.lt_trichotomy x.toNat y.toNat with h | h | h
      · rw [if_neg (by omega), if_pos h] at h2
        exact absurd h2 (by simp)
      · rw [if_neg (by omega), if_neg (by omega)] at h1
        rw [if_neg (by omega), if_neg (by omega)] at h2
        rw [char_toNat_inj h, ih h1 h2]
      · rw [if_neg (by omega), if_pos h] at h1
        exact absurd h1 (by simp)

theorem charListLe_trans : ∀ {a b c : List Char},
    charListLe a b = true → charListLe b c = true → charListLe a c = true := by
  intro a
  induction a with
  | nil => intro b c _ _; rfl
  | cons x xs ih =>
    intro b c h1 h2
    cases b with
    | nil => simp [charListLe] at h1
    | cons y ys =>
      cases c with
      | nil => simp [charListLe] at h2
      | cons z zs =>
        simp only [charListLe] at h1 h2 ⊢
        by_cases hxy : x.toNat < y.toNat
        · by_cases hyz : y.toNat < z.toNat
          · rw [if_pos (by omega)]
          · by_cases hzy : z.toNat < y.toNat
            · rw [if_neg hyz, if_pos hzy] at h2
              exact absurd h2 (by simp)
            · rw [if_pos (by omega)]
        · by_cases hyx : y.toNat < x.toNat
          · rw [if_neg hxy, if_pos hyx] at h1
            exact absurd h1 (by simp)
          · rw [if_neg hxy, if_neg hyx] at h1
            by_cases hyz : y.toNat < z.toNat
            · rw [if_pos (by omega)]
            · by_cases hzy : z.toNat < y.toNat
              · rw [if_neg hyz, if_pos hzy] at h2
                exact absurd h2 (by simp)
              · rw [if_neg hyz, if_neg hzy] at h2
                rw [if_neg (by omega), if_neg (by omega)]
                exact ih h1 h2

theorem charListLe_append_right : ∀ (l m : List Char), charListLe l (l ++ m) = true := by
  intro l m
  induction l with
  | nil => rfl
  | cons x xs ih =>
    simp only [List.cons_append, charListLe]
    rw [if_neg (by omega), if_neg (by omega)]
    exact ih

theorem pairwise_insertSorted {α : Type} (le : α → α → Bool)
    (htot : ∀ a b, le a b = true ∨ le b a = true)
    (htrans : ∀ a b c, le a b = true → le b c = true → le a c = true)
    (x : α) (l : List α) (h : l.Pairwise (fun a b => le a b = true)) :
    (insertSorted le x l).Pairwise (fun a b => le a b = true) := by
  induction l with
  | nil => simp [insertSorted]
  | cons y ys ih =>
    rcases List.pairwise_cons.mp h with ⟨hy, hys⟩
    unfold insertSorted
    by_cases hxy : le x y
    · simp only [hxy, if_true]
      refine List.pairwise_cons.mpr ⟨?_, h⟩
      intro z hz
      rcases List.mem_cons.mp hz with rfl | hz
      · exact hxy
      · exact htrans x y z hxy (hy z hz)
    · simp only [hxy, Bool.false_eq_true, if_false]
      refine List.pairwise_cons.mpr ⟨?_, ih hys⟩
      intro z hz
      rcases (mem_insertSorted le x ys z).mp hz with heq | hz
      · rw [heq]
        rcases htot x y with h1 | h1
        · exact absurd h1 hxy
        · exact h1
      · exact hy z hz

theorem pairwise_sortBy {α : Type} (le : α → α → Bool)
    (htot : ∀ a b, le a b = true ∨ le b a = true)
    (htrans : ∀ a b c, le a b = true → le b c = true → le a c = true)
    (l : List α) : (sortBy le l).Pairwise (fun a b => le a b = true) := by
  induction l with
  | nil => simp [sortBy]
  | cons x xs ih => exact pairwise_insertSorted le htot htrans x (sortBy le xs) ih

/-! ### Locating a node's edges among the stored relationship rows -/

theorem root_not_in_kids (t : SpecTree) (hnd : (treeIdsT t).Nodup) :
    t.rootId ∉ treeIdsF t.kids := by
  cases t with
  | node i q r ks => exact (nodupT_node hnd).1

theorem mem_treeIdsT_of_kids {t : SpecTree} {x : Nat} (h : x ∈ treeIdsF t.kids) :
    x ∈ treeIdsT t := by
  cases t with
  | node i q r ks =>
    simp only [treeIdsT, List.mem_cons]
    exact Or.inr (by simpa [SpecTree.kids] using h)

theorem kidEdges_filter_parent_self (i : Nat) (ks : List SpecTree) :
    (kidEdges i ks).filter (fun e => e.parent_part_id = i) = kidEdges i ks := by
  rw [List.filter_eq_self]
  intro e he
  rw [mem_kidEdges] at he
  obtain ⟨k, _, rfl⟩ := he
  simp [kidEdge]

theorem kidEdges_filter_parent_ne (i j : Nat) (hne : j ≠ i) (ks : List SpecTree) :
    (kidEdges i ks).filter (fun e => e.parent_part_id = j) = [] := by
  rw [List.filter_eq_nil_iff]
  intro e he
  rw [mem_kidEdges] at he
  obtain ⟨k, _, rfl⟩ := he
  simp [kidEdge]
  exact fun h => hne h.symm

theorem edgesT_filter_parent_nil (t : SpecTree) (x : Nat) (hx : x ∉ treeIdsT t) :
    (treeEdgesT t).filter (fun e => e.parent_part_id = x) = [] := by
  rw [List.filter_eq_nil_iff]
  intro e he
  have := (edge_mem_T t e he).1
  simp only [decide_eq_true_eq]
  intro hpe
  rw [hpe] at this
  exact hx this

theorem edgesF_filter_parent_nil (ks : List SpecTree) (x : Nat) (hx : x ∉ treeIdsF ks) :
    (treeEdgesF ks).filter (fun e => e.parent_part_id = x) = [] := by
  rw [List.filter_eq_nil_iff]
  intro e he
  have := (edge_mem_F ks e he).1
  simp only [decide_eq_true_eq]
  intro hpe
  rw [hpe] at this
  exact hx this

theorem edgesT_filter_child_nil (t : SpecTree) (x : Nat) (hx : x ∉ treeIdsF t.kids) :
    (treeEdgesT t).filter (fun e => e.child_part_id = x) = [] := by
  rw [List.filter_eq_nil_iff]
  intro e he
  have := (edge_mem_T t e he).2
  simp only [decide_eq_true_eq]
  intro hpe
  rw [hpe] at this
  exact hx this

theorem edgesF_filter_child_nil (ks : List SpecTree) (x : Nat) (hx : x ∉ treeIdsF ks) :
    (treeEdgesF ks).filter (fun e => e.child_part_id = x) = [] := by
  rw [List.filter_eq_nil_iff]
  intro e he
  have := (edge_mem_F ks e he).2
  simp only [decide_eq_true_eq]
  intro hpe
  rw [hpe] at this
  exact hx this

theorem kidEdges_filter_child_ne_nil (i x : Nat) (ks : List SpecTree)
    (h : ∀ k ∈ ks, k.rootId ≠ x) :
    (kidEdges i ks).filter (fun e => e.child_part_id = x) = [] := by
  rw [List.filter_eq_nil_iff]
  intro e he
  rw [mem_kidEdges] at he
  obtain ⟨k, hk, rfl⟩ := he
  simp [kidEdge]
  exact h k hk

theorem kidEdges_filter_child_root (i : Nat) :
    ∀ (ks : List SpecTree), (treeIdsF ks).Nodup → ∀ c ∈ ks,
      (kidEdges i ks).filter (fun e => e.child_part_id = c.rootId) = [kidEdge i c] := by
  intro ks
  induction ks with
  | nil => intro _ c hc; simp at hc
  | cons k rest ih =>
    intro hnd c hc
    obtain ⟨ndk, ndrest, disj⟩ := nodupF_head hnd
    rcases List.mem_cons.mp hc with rfl | hc
    · simp only [kidEdges, List.filter_cons]
      rw [if_pos (by simp [kidEdge])]
      rw [kidEdges_filter_child_ne_nil i c.rootId rest ?hne]
      case hne =>
        intro k' hk' he
        have h1 : k'.rootId ∈ treeIdsF rest :=
          mem_treeIdsF_of_mem hk' (rootId_mem_treeIdsT k')
        have h2 : c.rootId ∈ treeIdsT c := rootId_mem_treeIdsT c
        rw [he] at h1
        exact disj _ h2 h1
    · simp only [kidEdges, List.filter_cons]
      rw [if_neg ?hne2, ih ndrest c hc]
      case hne2 =>
        simp only [kidEdge, decide_eq_true_eq]
        intro he
        have h1 : c.rootId ∈ treeIdsF rest :=
          mem_treeIdsF_of_mem hc (rootId_mem_treeIdsT c)
        have h2 : k.rootId ∈ treeIdsT k := rootId_mem_treeIdsT k
        rw [← he] at h1
        exact disj _ h2 h1

theorem edgesF_filter_child_root_nil :
    ∀ (ks : List SpecTree), (treeIdsF ks).Nodup → ∀ c ∈ ks,
      (treeEdgesF ks).filter (fun e => e.child_part_id = c.rootId) = [] := by
  intro ks
  induction ks with
  | nil => intro _ c hc; simp at hc
  | cons k rest ih =>
    intro hnd c hc
    obtain ⟨ndk, ndrest, disj⟩ := nodupF_head hnd
    simp only [treeEdgesF, List.filter_append]
    rcases List.mem_cons.mp hc with rfl | hc
    · rw [edgesT_filter_child_nil c c.rootId (root_not_in_kids c ndk),
          edgesF_filter_child_nil rest c.rootId ?hnr]
      case hnr =>
        intro hmem
        exact disj _ (rootId_mem_treeIdsT c) hmem
      rfl
    · rw [edgesT_filter_child_nil k c.rootId ?hnk, ih ndrest c hc]
      case hnk =>
        intro hmem
        have h1 : c.rootId ∈ treeIdsF rest :=
          mem_treeIdsF_of_mem hc (rootId_mem_treeIdsT c)
        exact disj _ (mem_treeIdsT_of_kids hmem) h1
      rfl

theorem forest_root_ne :
    ∀ (ks : List SpecTree), (treeIdsF ks).Nodup → ∀ c ∈ ks, ∀ x ∈ treeIdsF c.kids,
      ∀ k' ∈ ks, k'.rootId ≠ x := by
  intro ks
  induction ks with
  | nil => intro _ c hc; simp at hc
  | cons k rest ih =>
    intro hnd c hc x hx k' hk' he
    obtain ⟨ndk, ndrest, disj⟩ := nodupF_head hnd
    rcases List.mem_cons.mp hc with hck | hck
    · rcases List.mem_cons.mp hk' with hkk | hkk
      · have h1 : x ∈ treeIdsF k.kids := by rw [← hck]; exact hx
        have h2 : k.rootId = x := by rw [← hkk]; exact he
        exact root_not_in_kids k ndk (h2 ▸ h1)
      · have h1 : x ∈ treeIdsT k := by rw [← hck]; exact mem_treeIdsT_of_kids hx
        have h2 : k'.rootId ∈ treeIdsF rest :=
          mem_treeIdsF_of_mem hkk (rootId_mem_treeIdsT k')
        rw [he] at h2
        exact disj _ h1 h2
    · rcases List.mem_cons.mp hk' with hkk | hkk
      · have h1 : x ∈ treeIdsF rest :=
          mem_treeIdsF_of_mem hck (mem_treeIdsT_of_kids hx)
        have h2 : k.rootId = x := by rw [← hkk]; exact he
        exact disj _ (h2 ▸ rootId_mem_treeIdsT k) h1
      · exact ih ndrest c hck x hx k' hkk he

mutual

/-- Among all rows stored for a tree with no duplicate ids, the rows whose
parent is the id of a given subtree are exactly that subtree's kid edges,
in kid order. -/
theorem F1T : ∀ (t : SpecTree), (treeIdsT t).Nodup → ∀ s, Sub s t →
    (treeEdgesT t).filter (fun e => e.parent_part_id = s.rootId)
      = kidEdges s.rootId s.kids
  | .node i q r ks => by
    intro hnd s hsub
    obtain ⟨hroot, hndF⟩ := nodupT_node hnd
    simp only [treeEdgesT, List.filter_append]
    cases hsub with
    | refl =>
      simp only [SpecTree.rootId, SpecTree.kids]
      rw [kidEdges_filter_parent_self i ks, edgesF_filter_parent_nil ks i hroot,
        List.append_nil]
    | @kid c _ _ _ _ hc hsub' =>
      have hrF : s.rootId ∈ treeIdsF ks :=
        mem_treeIdsF_of_mem hc (rootId_mem_of_sub hsub')
      rw [kidEdges_filter_parent_ne i s.rootId (fun he => hroot (he ▸ hrF)) ks,
        F1F ks hndF s c hc hsub', List.nil_append]

theorem F1F : ∀ (ks : List SpecTree), (treeIdsF ks).Nodup → ∀ s c, c ∈ ks → Sub s c →
    (treeEdgesF ks).filter (fun e => e.parent_part_id = s.rootId)
      = kidEdges s.rootId s.kids
  | [] => by intro _ s c hc; simp at hc
  | k :: rest => by
    intro hnd s c hc hsub
    obtain ⟨ndk, ndrest, disj⟩ := nodupF_head hnd
    simp only [treeEdgesF, List.filter_append]
    rcases List.mem_cons.mp hc with rfl | hc
    · rw [F1T c ndk s hsub, edgesF_filter_parent_nil rest s.rootId ?h1, List.append_nil]
      case h1 => exact fun hm => disj _ (rootId_mem_of_sub hsub) hm
    · rw [edgesT_filter_parent_nil k s.rootId ?h2, F1F rest ndrest s c hc hsub,
        List.nil_append]
      case h2 =>
        intro hm
        exact disj _ hm (mem_treeIdsF_of_mem hc (rootId_mem_of_sub hsub))

end

mutual

/-- Among all rows stored for a tree with no duplicate ids, exactly one row
points into a given strict subtree's root: the edge that attached it, so
its quantity and relationship type are the subtree's own. -/
theorem F2T : ∀ (t : SpecTree), (treeIdsT t).Nodup → ∀ s c, c ∈ t.kids → Sub s c →
    ∃ pa, (treeEdgesT t).filter (fun e => e.child_part_id = s.rootId)
      = [⟨pa, s.rootId, s.qtyOf, s.rtypeOf⟩]
  | .node i q r ks => by
    intro hnd s c hc hsub
    obtain ⟨hroot, hndF⟩ := nodupT_node hnd
    simp only [SpecTree.kids] at hc
    simp only [treeEdgesT, List.filter_append]
    cases hsub with
    | refl =>
      refine ⟨i, ?_⟩
      rw [kidEdges_filter_child_root i ks hndF s hc,
        edgesF_filter_child_root_nil ks hndF s hc, List.append_nil]
      rfl
    | @kid cc i' q' r' ks' hcc hsub' =>
      have hrs : s.rootId ∈ treeIdsF (SpecTree.node i' q' r' ks').kids :=
        mem_treeIdsF_of_mem hcc (rootId_mem_of_sub hsub')
      obtain ⟨pa, hpa⟩ := F2F ks hndF s (.node i' q' r' ks') cc hc hcc hsub'
      refine ⟨pa, ?_⟩
      rw [kidEdges_filter_child_ne_nil i s.rootId ks
        (forest_root_ne ks hndF (.node i' q' r' ks') hc s.rootId hrs), hpa,
        List.nil_append]

theorem F2F : ∀ (ks : List SpecTree), (treeIdsF ks).Nodup →
    ∀ s c cc, c ∈ ks → cc ∈ c.kids → Sub s cc →
    ∃ pa, (treeEdgesF ks).filter (fun e => e.child_part_id = s.rootId)
      = [⟨pa, s.rootId, s.qtyOf, s.rtypeOf⟩]
  | [] => by intro _ s c cc hc; simp at hc
  | k :: rest => by
    intro hnd s c cc hc hcc hsub
    obtain ⟨ndk, ndrest, disj⟩ := nodupF_head hnd
    have hrs_c : s.rootId ∈ treeIdsT c :=
      mem_treeIdsT_of_kids (mem_treeIdsF_of_mem hcc (rootId_mem_of_sub hsub))
    simp only [treeEdgesF, List.filter_append]
    rcases List.mem_cons.mp hc with rfl | hc
    · obtain ⟨pa, hpa⟩ := F2T c ndk s cc hcc hsub
      refine ⟨pa, ?_⟩
      rw [hpa, edgesF_filter_child_nil rest s.rootId ?h1, List.append_nil]
      case h1 => exact fun hm => disj _ hrs_c hm
    · obtain ⟨pa, hpa⟩ := F2F rest ndrest s c cc hc hcc hsub
      refine ⟨pa, ?_⟩
      rw [edgesT_filter_child_nil k s.rootId ?h2, hpa, List.nil_append]
      case h2 =>
        intro hm
        exact disj _ (mem_treeIdsT_of_kids hm) (mem_treeIdsF_of_mem hc hrs_c)

end

theorem bomCTE_depth_ge (edges : List Edge) (fuel : Nat) :
    ∀ pid d path r, r ∈ bomCTE edges fuel pid d path → d ≤ r.depth := by
  induction fuel with
  | zero =>
    intro pid d path r hr
    simp only [bomCTE, List.mem_singleton] at hr
    subst hr
    simp
  | succ n ih =>
    intro pid d path r hr
    simp only [bomCTE, List.mem_cons, List.mem_flatMap] at hr
    rcases hr with rfl | ⟨e, _, hre⟩
    · simp
    · have := ih e.child_part_id (d + 1) _ r hre
      omega

/-- `joinRow` applied to an explicit CTE row, with projections reduced. -/
theorem joinRow_mk (E : List Edge) (parts : List Part) (pid dd : Nat) (pp : String) :
    joinRow E parts ⟨pid, dd, pp⟩
      = match parts.find? (fun p => p.id = pid) with
        | none => []
        | some p =>
          match E.filter (fun e => e.child_part_id = pid) with
          | [] => [⟨dd, none, none, p.id, p.part_number, p.part_name,
                    p.part_revision, p.release_status, pp⟩]
          | es => es.map (fun e =>
              ⟨dd, some e.quantity, some e.relationship_type, p.id, p.part_number,
               p.part_name, p.part_revision, p.release_status, pp⟩) := rfl

mutual

/-- Bridge, tree case: the CTE seeded at a kid `k` (row depth `d+1`,
parent row path `path`), joined, produces exactly the expected rows of
`k`'s subtree — given enough fuel and given that the stored edges locate
each subtree's kid edges (F1) and unique incoming edge (F2). -/
theorem bridgeT : ∀ (E : List Edge) (parts : List Part) (k : SpecTree) (d : Nat)
    (path : String) (fuel : Nat), hgtT k ≤ fuel →
    (∀ s, Sub s k → bomChildren E s.rootId = kidEdges s.rootId s.kids) →
    (∀ s, Sub s k → ∃ pa, E.filter (fun e => e.child_part_id = s.rootId)
        = [⟨pa, s.rootId, s.qtyOf, s.rtypeOf⟩]) →
    (bomCTE E fuel k.rootId (d + 1) (path ++ "/" ++ toString k.rootId)).flatMap
        (joinRow E parts)
      = specRowsK parts k d path
  | E, parts, .node i q r ks, d, path, fuel => by
    intro hfuel hF1 hF2
    have hhead : ∀ pres, joinRow E parts ⟨i, d + 1, pres⟩
        = (match parts.find? (fun p => p.id = i) with
           | none => []
           | some p => [⟨d + 1, some q, some r, p.id, p.part_number, p.part_name,
                         p.part_revision, p.release_status, pres⟩]) := by
      intro pres
      rw [joinRow_mk]
      obtain ⟨pa, hpa⟩ := hF2 _ (Sub.refl _)
      simp only [SpecTree.rootId, SpecTree.qtyOf, SpecTree.rtypeOf] at hpa
      rw [hpa]
      cases parts.find? (fun p => p.id = i) with
      | none => rfl
      | some p => rfl
    cases fuel with
    | zero =>
      have hks : ks = [] := hgtF_eq_zero (by simpa [hgtT] using hfuel)
      subst hks
      simp only [SpecTree.rootId, bomCTE, List.flatMap_cons, List.flatMap_nil,
        List.append_nil, specRowsK, specRowsF]
      rw [hhead]
    | succ fl =>
      simp only [SpecTree.rootId, bomCTE, List.flatMap_cons]
      rw [List.flatMap_assoc]
      have hch : bomChildren E i = kidEdges i ks := by
        simpa [SpecTree.rootId, SpecTree.kids] using hF1 _ (Sub.refl _)
      rw [hch, hhead]
      simp only [specRowsK]
      have hrest := bridgeF E parts i ks (d + 1) (path ++ "/" ++ toString i) fl
        (fun c hc => by
          have h1 := hgtF_mem_le hc
          have h2 : hgtF ks ≤ fl + 1 := by simpa [hgtT] using hfuel
          omega)
        (fun c hc s hs => hF1 s (Sub.kid hc hs))
        (fun c hc s hs => hF2 s (Sub.kid hc hs))
      rw [hrest]

/-- Bridge, forest case: seeding the CTE once per kid edge and joining
produces exactly the expected rows of the forest. -/
theorem bridgeF : ∀ (E : List Edge) (parts : List Part) (i : Nat)
    (ks : List SpecTree) (d : Nat) (path : String) (fuel : Nat),
    (∀ c ∈ ks, hgtT c ≤ fuel) →
    (∀ c ∈ ks, ∀ s, Sub s c → bomChildren E s.rootId = kidEdges s.rootId s.kids) →
    (∀ c ∈ ks, ∀ s, Sub s c → ∃ pa, E.filter (fun e => e.child_part_id = s.rootId)
        = [⟨pa, s.rootId, s.qtyOf, s.rtypeOf⟩]) →
    (kidEdges i ks).flatMap (fun e =>
        (bomCTE E fuel e.child_part_id (d + 1)
          (path ++ "/" ++ toString e.child_part_id)).flatMap (joinRow E parts))
      = specRowsF parts ks d path
  | E, parts, i, [], d, path, fuel => by
    intro _ _ _
    simp [kidEdges, specRowsF]
  | E, parts, i, k :: rest, d, path, fuel => by
    intro hf h1 h2
    simp only [kidEdges, List.flatMap_cons, specRowsF]
    have hk := bridgeT E parts k d path fuel (hf k (List.mem_cons_self k rest))
      (h1 k (List.mem_cons_self k rest)) (h2 k (List.mem_cons_self k rest))
    have hr := bridgeF E parts i rest d path fuel
      (fun c hc => hf c (List.mem_cons_of_mem k hc))
      (fun c hc => h1 c (List.mem_cons_of_mem k hc))
      (fun c hc => h2 c (List.mem_cons_of_mem k hc))
    rw [show (kidEdge i k).child_part_id = k.rootId from rfl, hk, hr]

end

/-- The top of the bridge: the full filtered and joined CTE of
`get_bom_flat`, seeded at the root, equals the expected rows of the root's
kid forest (the root row itself is dropped by `b.depth > 0`). -/
theorem cte_top (E : List Edge) (parts : List Part) (i q : Nat) (r : String)
    (ks : List SpecTree) (fl : Nat)
    (hfl : hgtT (.node i q r ks) ≤ fl + 1)
    (hF1 : ∀ s, Sub s (.node i q r ks) →
      bomChildren E s.rootId = kidEdges s.rootId s.kids)
    (hF2 : ∀ s c, c ∈ ks → Sub s c →
      ∃ pa, E.filter (fun e => e.child_part_id = s.rootId)
        = [⟨pa, s.rootId, s.qtyOf, s.rtypeOf⟩]) :
    ((bomCTE E (fl + 1) i 0 (toString i)).filter (fun b => 0 < b.depth)).flatMap
        (joinRow E parts)
      = specRowsF parts ks 0 (toString i) := by
  simp only [bomCTE, List.filter_cons]
  rw [if_neg (by simp)]
  have hch : bomChildren E i = kidEdges i ks := by
    simpa [SpecTree.rootId, SpecTree.kids] using hF1 _ (Sub.refl _)
  rw [hch]
  have hfilter : ((kidEdges i ks).flatMap (fun e =>
      bomCTE E fl e.child_part_id (0 + 1)
        (toString i ++ "/" ++ toString e.child_part_id))).filter (fun b => 0 < b.depth)
      = (kidEdges i ks).flatMap (fun e =>
          bomCTE E fl e.child_part_id (0 + 1)
            (toString i ++ "/" ++ toString e.child_part_id)) := by
    rw [List.filter_eq_self]
    intro b hb
    rw [List.mem_flatMap] at hb
    obtain ⟨e, _, hbe⟩ := hb
    have := bomCTE_depth_ge E fl e.child_part_id (0 + 1) _ b hbe
    simp only [decide_eq_true_eq]
    omega
  rw [hfilter, List.flatMap_assoc]
  exact bridgeF E parts i ks 0 (toString i) fl
    (fun c hc => by
      have hm := hgtF_mem_le hc
      have h2 : hgtF ks ≤ fl + 1 := by simpa [hgtT] using hfl
      omega)
    (fun c hc s hs => hF1 s (Sub.kid hc hs))
    (fun c hc s hs => hF2 s c hc hs)

/-- `get_bom_flat` on the edge set of a duplicate-free tree of height at
most 20 is the path-sorted list of the expected rows. -/
theorem get_bom_flat_tree (t : SpecTree) (parts : List Part)
    (hnd : (treeIdsT t).Nodup) (hh : hgtT t ≤ 20) :
    get_bom_flat (treeEdgesT t) parts t.rootId
      = sortBy pathLe (specRowsF parts t.kids 0 (toString t.rootId)) := by
  cases t with
  | node i q r ks =>
    unfold get_bom_flat
    simp only [SpecTree.rootId, SpecTree.kids]
    congr 1
    exact cte_top (treeEdgesT (.node i q r ks)) parts i q r ks 19
      (by simpa using hh)
      (fun s hs => F1T _ hnd s hs)
      (fun s c hc hs => F2T _ hnd s c hc hs)

mutual

/-- When every id of the subtree has a part row, the expected rows list
exactly the subtree's ids, in preorder. -/
theorem specRowsK_ids : ∀ (parts : List Part) (k : SpecTree) (d : Nat) (path : String),
    (∀ j ∈ treeIdsT k, (parts.find? (fun p => p.id = j)).isSome) →
    (specRowsK parts k d path).map (fun row => row.id) = treeIdsT k
  | parts, .node i q r ks, d, path => by
    intro hcov
    have hci : (parts.find? (fun p => p.id = i)).isSome :=
      hcov i (by simp [treeIdsT])
    simp only [specRowsK, treeIdsT, List.map_append]
    cases hfind : parts.find? (fun p => p.id = i) with
    | none => rw [hfind] at hci; simp at hci
    | some p =>
      have hpid : p.id = i := by simpa using List.find?_some hfind
      rw [specRowsF_ids parts ks (d + 1) (path ++ "/" ++ toString i)
        (fun j hj => hcov j (by simp only [treeIdsT, List.mem_cons]; exact Or.inr hj))]
      simp [hpid]

theorem specRowsF_ids : ∀ (parts : List Part) (ks : List SpecTree) (d : Nat) (path : String),
    (∀ j ∈ treeIdsF ks, (parts.find? (fun p => p.id = j)).isSome) →
    (specRowsF parts ks d path).map (fun row => row.id) = treeIdsF ks
  | parts, [], d, path => by
    intro _
    simp [specRowsF, treeIdsF]
  | parts, k :: rest, d, path => by
    intro hcov
    simp only [specRowsF, treeIdsF, List.map_append]
    rw [specRowsK_ids parts k d path
        (fun j hj => hcov j (by simp only [treeIdsF, List.mem_append]; exact Or.inl hj)),
      specRowsF_ids parts rest d path
        (fun j hj => hcov j (by simp only [treeIdsF, List.mem_append]; exact Or.inr hj))]

end

mutual

/-- Every expected row's id is an id of the subtree. -/
theorem specRowsK_id_mem : ∀ (parts : List Part) (k : SpecTree) (d : Nat) (path : String)
    (row : FlatRow), row ∈ specRowsK parts k d path → row.id ∈ treeIdsT k
  | parts, .node i q r ks, d, path => by
    intro row hrow
    simp only [specRowsK, List.mem_append] at hrow
    simp only [treeIdsT, List.mem_cons]
    rcases hrow with hrow | hrow
    · split at hrow
      · simp at hrow
      · rename_i p hp
        simp only [List.mem_singleton] at hrow
        subst hrow
        exact Or.inl (by simpa using List.find?_some hp)
    · exact Or.inr (specRowsF_id_mem parts ks (d + 1) _ row hrow)

theorem specRowsF_id_mem : ∀ (parts : List Part) (ks : List SpecTree) (d : Nat)
    (path : String) (row : FlatRow), row ∈ specRowsF parts ks d path → row.id ∈ treeIdsF ks
  | parts, [], d, path => by intro row hrow; simp [specRowsF] at hrow
  | parts, k :: rest, d, path => by
    intro row hrow
    simp only [specRowsF, List.mem_append] at hrow
    simp only [treeIdsF, List.mem_append]
    rcases hrow with hrow | hrow
    · exact Or.inl (specRowsK_id_mem parts k d path row hrow)
    · exact Or.inr (specRowsF_id_mem parts rest d path row hrow)

end

mutual

/-- Every expected row's path strictly extends the base path with a "/". -/
theorem specRowsK_path_ext : ∀ (parts : List Part) (k : SpecTree) (d : Nat)
    (path : String) (row : FlatRow), row ∈ specRowsK parts k d path →
    ∃ rest : String, row.path = path ++ "/" ++ rest
  | parts, .node i q r ks, d, path => by
    intro row hrow
    simp only [specRowsK, List.mem_append] at hrow
    rcases hrow with hrow | hrow
    · split at hrow
      · simp at hrow
      · simp only [List.mem_singleton] at hrow
        subst hrow
        exact ⟨toString i, rfl⟩
    · obtain ⟨rest, hrest⟩ := specRowsF_path_ext parts ks (d + 1) _ row hrow
      refine ⟨toString i ++ "/" ++ rest, ?_⟩
      rw [hrest]
      simp [String.append_assoc]

theorem specRowsF_path_ext : ∀ (parts : List Part) (ks : List SpecTree) (d : Nat)
    (path : String) (row : FlatRow), row ∈ specRowsF parts ks d path →
    ∃ rest : String, row.path = path ++ "/" ++ rest
  | parts, [], d, path => by intro row hrow; simp [specRowsF] at hrow
  | parts, k :: rest, d, path => by
    intro row hrow
    simp only [specRowsF, List.mem_append] at hrow
    rcases hrow with hrow | hrow
    · exact specRowsK_path_ext parts k d path row hrow
    · exact specRowsF_path_ext parts rest d path row hrow

end

theorem sub_cases {s t : SpecTree} (h : Sub s t) :
    s = t ∨ ∃ c ∈ t.kids, Sub s c := by
  cases h with
  | refl => exact Or.inl rfl
  | kid hc h => exact Or.inr ⟨_, hc, h⟩

theorem nodup_kids (t : SpecTree) (hnd : (treeIdsT t).Nodup) :
    (treeIdsF t.kids).Nodup := by
  cases t with
  | node i q r ks => exact (nodupT_node hnd).2

mutual

/-- In the expected rows of a duplicate-free subtree, the row of a node is
a path-ancestor of every row of that node's strict descendants. -/
theorem anc_path_K : ∀ (parts : List Part) (k : SpecTree) (d : Nat) (path : String)
    (s : SpecTree), (treeIdsT k).Nodup → Sub s k →
    ∀ ra rb, ra ∈ specRowsK parts k d path → rb ∈ specRowsK parts k d path →
    ra.id = s.rootId → rb.id ∈ treeIdsF s.kids →
    ∃ rest : String, rb.path = ra.path ++ "/" ++ rest
  | parts, .node i q r ks, d, path => by
    intro s hnd hsub ra rb hra hrb hraid hrbid
    obtain ⟨hroot, hndF⟩ := nodupT_node hnd
    simp only [specRowsK, List.mem_append] at hra hrb
    rcases sub_cases hsub with heq | ⟨c, hc, hsub'⟩
    · -- s is the node itself: ra is its head row, rb lies in the forest
      subst heq
      simp only [SpecTree.rootId] at hraid
      simp only [SpecTree.kids] at hrbid
      have hraP : ra.path = path ++ "/" ++ toString i := by
        rcases hra with h | h
        · split at h
          · simp at h
          · simp only [List.mem_singleton] at h
            rw [h]
        · exfalso
          have := specRowsF_id_mem parts ks (d + 1) _ ra h
          rw [hraid] at this
          exact hroot this
      have hrbF : rb ∈ specRowsF parts ks (d + 1) (path ++ "/" ++ toString i) := by
        rcases hrb with h | h
        · exfalso
          split at h
          · simp at h
          · rename_i p hp
            simp only [List.mem_singleton] at h
            have hrid : rb.id = i := by rw [h]; simpa using List.find?_some hp
            rw [hrid] at hrbid
            exact hroot hrbid
        · exact h
      obtain ⟨rest, hrest⟩ := specRowsF_path_ext parts ks (d + 1) _ rb hrbF
      exact ⟨rest, by rw [hrest, hraP]⟩
    · -- s lies strictly inside one of the kids
      have hcks : c ∈ ks := hc
      have hsT : s.rootId ∈ treeIdsT c := rootId_mem_of_sub hsub'
      have hsF : s.rootId ∈ treeIdsF ks := mem_treeIdsF_of_mem hcks hsT
      have hrbT : rb.id ∈ treeIdsT c :=
        treeIds_sub_of_sub hsub' _ (mem_treeIdsT_of_kids hrbid)
      have hrbF2 : rb.id ∈ treeIdsF ks := mem_treeIdsF_of_mem hcks hrbT
      have hraF : ra ∈ specRowsF parts ks (d + 1) (path ++ "/" ++ toString i) := by
        rcases hra with h | h
        · exfalso
          split at h
          · simp at h
          · rename_i p hp
            simp only [List.mem_singleton] at h
            have hrid : ra.id = i := by rw [h]; simpa using List.find?_some hp
            rw [hraid] at hrid
            exact hroot (hrid ▸ hsF)
        · exact h
      have hrbFF : rb ∈ specRowsF parts ks (d + 1) (path ++ "/" ++ toString i) := by
        rcases hrb with h | h
        · exfalso
          split at h
          · simp at h
          · rename_i p hp
            simp only [List.mem_singleton] at h
            have hrid : rb.id = i := by rw [h]; simpa using List.find?_some hp
            exact hroot (hrid ▸ hrbF2)
        · exact h
      exact anc_path_F parts ks (d + 1) _ s hndF ⟨c, hcks, hsub'⟩ ra rb hraF hrbFF
        hraid hrbid

theorem anc_path_F : ∀ (parts : List Part) (ks : List SpecTree) (d : Nat) (path : String)
    (s : SpecTree), (treeIdsF ks).Nodup → (∃ c ∈ ks, Sub s c) →
    ∀ ra rb, ra ∈ specRowsF parts ks d path → rb ∈ specRowsF parts ks d path →
    ra.id = s.rootId → rb.id ∈ treeIdsF s.kids →
    ∃ rest : String, rb.path = ra.path ++ "/" ++ rest
  | parts, [], d, path => by
    intro s _ hex
    obtain ⟨c, hc, _⟩ := hex
    simp at hc
  | parts, k :: rest, d, path => by
    intro s hnd hex ra rb hra hrb hraid hrbid
    obtain ⟨ndk, ndrest, disj⟩ := nodupF_head hnd
    obtain ⟨c, hc, hsub⟩ := hex
    have hsT : s.rootId ∈ treeIdsT c := rootId_mem_of_sub hsub
    have hrbT : rb.id ∈ treeIdsT c :=
      treeIds_sub_of_sub hsub _ (mem_treeIdsT_of_kids hrbid)
    simp only [specRowsF, List.mem_append] at hra hrb
    rcases List.mem_cons.mp hc with hck | hck
    · have hsk : Sub s k := by rw [← hck]; exact hsub
      have hsTk : s.rootId ∈ treeIdsT k := by rw [← hck]; exact hsT
      have hrbTk : rb.id ∈ treeIdsT k := by rw [← hck]; exact hrbT
      have hraK : ra ∈ specRowsK parts k d path := by
        rcases hra with h | h
        · exact h
        · exfalso
          have := specRowsF_id_mem parts rest d path ra h
          rw [hraid] at this
          exact disj _ hsTk this
      have hrbK : rb ∈ specRowsK parts k d path := by
        rcases hrb with h | h
        · exact h
        · exfalso
          have := specRowsF_id_mem parts rest d path rb h
          exact disj _ hrbTk this
      exact anc_path_K parts k d path s ndk hsk ra rb hraK hrbK hraid hrbid
    · have hsF : s.rootId ∈ treeIdsF rest := mem_treeIdsF_of_mem hck hsT
      have hrbF : rb.id ∈ treeIdsF rest := mem_treeIdsF_of_mem hck hrbT
      have hraR : ra ∈ specRowsF parts rest d path := by
        rcases hra with h | h
        · exfalso
          have := specRowsK_id_mem parts k d path ra h
          rw [hraid] at this
          exact disj _ this hsF
        · exact h
      have hrbR : rb ∈ specRowsF parts rest d path := by
        rcases hrb with h | h
        · exfalso
          have := specRowsK_id_mem parts k d path rb h
          exact disj _ this hrbF
        · exact h
      exact anc_path_F parts rest d path s ndrest ⟨c, hck, hsub⟩ ra rb hraR hrbR
        hraid hrbid

end

/-- C3 (amended): for every edge set forming a tree of height at most 20
below the root, with distinct part ids all present in the parts table,
FlatBOM returns exactly the expected rows — every reachable descendant
exactly once (the expected rows list precisely the distinct descendant
ids), each annotated with its correct depth and with the quantity and
relationship type of the edge that attached it (`specRowsF` carries
exactly these values per node) — in deterministic pre-order: the output is
sorted by the traversal path key (the "/"-joined id string, not by
part_number within a level), which places every parent before its
descendants. -/
theorem C3_flat_bom_on_trees (t : SpecTree) (parts : List Part)
    (hnd : (treeIdsT t).Nodup) (hh : hgtT t ≤ 20)
    (hcov : ∀ j ∈ treeIdsT t, (parts.find? (fun p => p.id = j)).isSome) :
    (get_bom_flat (treeEdgesT t) parts t.rootId).Perm
        (specRowsF parts t.kids 0 (toString t.rootId))
    ∧ (specRowsF parts t.kids 0 (toString t.rootId)).map (fun row => row.id)
        = treeIdsF t.kids
    ∧ (treeIdsF t.kids).Nodup
    ∧ (get_bom_flat (treeEdgesT t) parts t.rootId).Pairwise
        (fun a b => pathLe a b = true)
    ∧ (∀ i j (hi : i < (get_bom_flat (treeEdgesT t) parts t.rootId).length)
         (hj : j < (get_bom_flat (treeEdgesT t) parts t.rootId).length),
        isAncestorIn t ((get_bom_flat (treeEdgesT t) parts t.rootId).get ⟨i, hi⟩).id
          ((get_bom_flat (treeEdgesT t) parts t.rootId).get ⟨j, hj⟩).id → i < j) := by
  have hmain := get_bom_flat_tree t parts hnd hh
  have hperm : (get_bom_flat (treeEdgesT t) parts t.rootId).Perm
      (specRowsF parts t.kids 0 (toString t.rootId)) := by
    rw [hmain]
    exact sortBy_perm pathLe _
  have hsorted : (get_bom_flat (treeEdgesT t) parts t.rootId).Pairwise
      (fun a b => pathLe a b = true) := by
    rw [hmain]
    exact pairwise_sortBy pathLe
      (fun a b => charListLe_total a.path.data b.path.data)
      (fun a b c hab hbc => charListLe_trans hab hbc) _
  refine ⟨hperm, ?_, nodup_kids t hnd, hsorted, ?_⟩
  · exact specRowsF_ids parts t.kids 0 (toString t.rootId)
      (fun j hj => hcov j (mem_treeIdsT_of_kids hj))
  · intro i j hi hj hanc
    obtain ⟨s, hsub, hsroot, hbdesc⟩ := hanc
    have hra_mem : (get_bom_flat (treeEdgesT t) parts t.rootId).get ⟨i, hi⟩
        ∈ get_bom_flat (treeEdgesT t) parts t.rootId := List.get_mem _ i hi
    have hrb_mem : (get_bom_flat (treeEdgesT t) parts t.rootId).get ⟨j, hj⟩
        ∈ get_bom_flat (treeEdgesT t) parts t.rootId := List.get_mem _ j hj
    have hra_spec := hperm.mem_iff.mp hra_mem
    have hrb_spec := hperm.mem_iff.mp hrb_mem
    rcases sub_cases hsub with heq | ⟨c, hc, hsub'⟩
    · exfalso
      have h1 := specRowsF_id_mem parts t.kids 0 _ _ hra_spec
      rw [← hsroot, heq] at h1
      exact root_not_in_kids t hnd h1
    · obtain ⟨rest, hrest⟩ := anc_path_F parts t.kids 0 (toString t.rootId) s
        (nodup_kids t hnd) ⟨c, hc, hsub'⟩ _ _ hra_spec hrb_spec hsroot.symm hbdesc
      have hle : pathLe ((get_bom_flat (treeEdgesT t) parts t.rootId).get ⟨i, hi⟩)
          ((get_bom_flat (treeEdgesT t) parts t.rootId).get ⟨j, hj⟩) = true := by
        unfold pathLe
        rw [hrest, String.data_append, String.data_append, List.append_assoc]
        exact charListLe_append_right _ _
      have hne : ((get_bom_flat (treeEdgesT t) parts t.rootId).get ⟨i, hi⟩).path
          ≠ ((get_bom_flat (treeEdgesT t) parts t.rootId).get ⟨j, hj⟩).path := by
        intro he
        have hlen : ((get_bom_flat (treeEdgesT t) parts t.rootId).get
            ⟨i, hi⟩).path.data.length
            = ((get_bom_flat (treeEdgesT t) parts t.rootId).get ⟨j, hj⟩).path.data.length := by
          rw [he]
        rw [hrest, String.data_append, String.data_append, List.append_assoc,
          List.length_append] at hlen
        have hslash : ("/" : String).data.length = 1 := rfl
        rw [List.length_append, hslash] at hlen
        omega
      by_contra hij
      push_neg at hij
      rcases Nat.eq_or_lt_of_le hij with heqn | hlt
      · apply hne
        have : (⟨j, hj⟩ : Fin (get_bom_flat (treeEdgesT t) parts t.rootId).length)
            = ⟨i, hi⟩ := by
          apply Fin.ext
          exact heqn
        rw [this]
      · have hpw := List.pairwise_iff_get.mp hsorted ⟨j, hj⟩ ⟨i, hi⟩ hlt
        have hdata := charListLe_antisymm hle hpw
        exact hne (String.ext hdata)

/-- A 3-level tree: 1 → {2 (qty 1, "assembly") → {4 (qty 2, "fitting")},
3 (qty 3, "assembly")}. -/
def tW : SpecTree :=
  .node 1 0 "" [.node 2 1 "assembly" [.node 4 2 "fitting" []], .node 3 3 "assembly" []]

def partsW : List Part :=
  [{ p0 with id := 1, part_number := "ROOT" },
   { p0 with id := 2, part_number := "SUB-ASSY" },
   { p0 with id := 3, part_number := "BOLT" },
   { p0 with id := 4, part_number := "PIN" }]

/-- Witness for C3 (amended) on the concrete 3-level tree: the output is a
permutation of the expected rows, and those rows list the descendants
2, 4, 3 exactly once in pre-order. -/
theorem C3_flat_bom_on_trees_witness :
    (get_bom_flat (treeEdgesT tW) partsW 1).Perm
        (specRowsF partsW tW.kids 0 (toString (1 : Nat)))
    ∧ (specRowsF partsW tW.kids 0 (toString (1 : Nat))).map (fun row => row.id)
        = [2, 4, 3] := by
  have h := C3_flat_bom_on_trees tW partsW (by decide) (by decide) (by decide)
  exact ⟨h.1, h.2.1.trans (by decide)⟩

/-! ### Document store (`app/files.py`, `app/config.py`, document tables)

File contents are opaque `Nat` tokens; the disk is a finite map from
absolute path strings to contents.  Audit entries are omitted here (no
verified document property mentions them). -/

/-- `config.FILES_ROOT` default. -/
def FILES_ROOT : String := "/srv/plm/files"

/-- `config.MAX_FILE_VERSIONS` default. -/
def MAX_FILE_VERSIONS : Nat := 3

/-- A row of the `documents` table. -/
structure Doc where
  id : Nat
  part_id : Option Nat
  filename : String
  stored_path : String
  file_type : String
  description : String
  uploaded_by : Nat
  uploaded_at : Nat
deriving Repr, DecidableEq

/-- A row of the `file_versions` table. -/
structure FileVersion where
  id : Nat
  document_id : Nat
  version_label : String
  backup_path : String
  file_size : Nat
  saved_by : Nat
  saved_at : Nat
deriving Repr, DecidableEq

/-- Read a file: first entry with this path. -/
def diskRead : List (String × Nat) → String → Option Nat
  | [], _ => none
  | e :: rest, p => if e.1 = p then some e.2 else diskRead rest p

/-- Write a file, overwriting an existing one at the same path. -/
def diskWrite : List (String × Nat) → String → Nat → List (String × Nat)
  | [], p, c => [(p, c)]
  | e :: rest, p, c => if e.1 = p then (p, c) :: rest else e :: diskWrite rest p c

/-- `unlink` a file. -/
def diskRemove : List (String × Nat) → String → List (String × Nat)
  | [], _ => []
  | e :: rest, p => if e.1 = p then rest else e :: diskRemove rest p

/-- The document-store slice of the database plus the disk. -/
structure DocDB where
  docs : List Doc
  versions : List FileVersion
  disk : List (String × Nat)
  next_doc_id : Nat
  next_version_id : Nat
deriving Repr, DecidableEq

/-- Wall-clock fields used by the timestamped filenames. -/
structure Clock where
  month : Nat
  day : Nat
  hour : Nat
  minute : Nat
  second : Nat
deriving Repr, DecidableEq

/-- Two-digit zero-padded field, as `strftime` renders it. -/
def pad2 (n : Nat) : String := (if n < 10 then "0" else "") ++ toString n

/-- `files._version_label`: `now.strftime("_%m%d_%H%M")` — derived from
month, day, hour and minute only. -/
def version_label (c : Clock) : String :=
  "_" ++ pad2 c.month ++ pad2 c.day ++ "_" ++ pad2 c.hour ++ pad2 c.minute

/-- The `now.strftime("%m%d_%H%M%S")` stamp used by `restore_version`. -/
def restore_label (c : Clock) : String :=
  pad2 c.month ++ pad2 c.day ++ "_" ++ pad2 c.hour ++ pad2 c.minute ++ pad2 c.second

/-- Split a file name at its last dot: (chars before, dot and after);
no dot gives (name, []). -/
def splitDot : List Char → List Char × List Char
  | [] => ([], [])
  | c :: rest =>
    let pr := splitDot rest
    if pr.2.isEmpty then
      if c = '.' then ([], c :: rest) else (c :: rest, [])
    else (c :: pr.1, pr.2)

/-- `pathlib.Path(name).stem` and `.suffix` for a bare file name: the
suffix is empty when there is no dot, when the only dot leads the name, or
when the last dot is final. -/
def pySplit (filename : String) : String × String :=
  let pr := splitDot filename.data
  if pr.1.isEmpty ∨ pr.2.length ≤ 1 then (filename, "")
  else (String.mk pr.1, String.mk pr.2)

def pyStem (filename : String) : String := (pySplit filename).1

def pySuffix (filename : String) : String := (pySplit filename).2

/-- Final path component (`Path(...).name`). -/
def basename (path : String) : String :=
  String.mk ((path.data.reverse.takeWhile (fun c => ¬ c = '/')).reverse)

/-- ASCII lowercasing of one character (`str.lower`). -/
def loChar (c : Char) : Char :=
  if 65 ≤ c.toNat ∧ c.toNat ≤ 90 then Char.ofNat (c.toNat + 32) else c

def strLower (s : String) : String := String.mk (s.data.map loChar)

/-- `config.CAD_EXTENSIONS` default. -/
def CAD_EXTENSIONS : List String :=
  [".prt", ".asm", ".drw", ".stl", ".3mf", ".obj", ".step", ".stp",
   ".sldprt", ".sldasm", ".ipt", ".iam"]

/-- `config.is_cad_file`. -/
def is_cad_file (filename : String) : Bool :=
  CAD_EXTENSIONS.contains (strLower (pySuffix filename))

/-- `files._ext_folder`: the destination directory for a file name, from
the fixed extension→folder table, falling back to the uppercased extension
or "OTHER". -/
def ext_folder (filename : String) : String :=
  let ext := strUpper (String.mk ((pySuffix filename).data.dropWhile (fun c => c = '.')))
  let folder :=
    if ext = "PRT" ∨ ext = "ASM" ∨ ext = "DRW" then "NX"
    else if ext = "SLDPRT" ∨ ext = "SLDASM" then "SOLIDWORKS"
    else if ext = "IPT" ∨ ext = "IAM" then "INVENTOR"
    else if ext = "STEP" ∨ ext = "STP" then "STEP"
    else if ext = "STL" then "STL"
    else if ext = "3MF" then "3MF"
    else if ext = "OBJ" then "OBJ"
    else if ext = "" then "OTHER"
    else ext
  FILES_ROOT ++ "/" ++ folder

/-- `Database.list_documents(part_id)`: filter and order by `uploaded_at`
descending. -/
def list_documents (db : DocDB) (pid : Nat) : List Doc :=
  sortBy (fun a b => decide (b.uploaded_at ≤ a.uploaded_at))
    (db.docs.filter (fun dd => dd.part_id = some pid))

/-- `Database.add_file_version`: plain insert with a fresh id. -/
def add_file_version (db : DocDB) (doc_id : Nat) (label backup_path : String)
    (file_size saved_by now : Nat) : DocDB :=
  { db with
      versions := db.versions ++
        [⟨db.next_version_id, doc_id, label, backup_path, file_size, saved_by, now⟩],
      next_version_id := db.next_version_id + 1 }

/-- `Database.list_file_versions`: this document's rows, newest first. -/
def list_file_versions (db : DocDB) (doc_id : Nat) : List FileVersion :=
  sortBy (fun a b => decide (b.saved_at ≤ a.saved_at))
    (db.versions.filter (fun v => v.document_id = doc_id))

/-- `Database.get_old_versions`: rows beyond the newest `keep`. -/
def get_old_versions (db : DocDB) (doc_id keep : Nat) : List FileVersion :=
  (list_file_versions db doc_id).drop keep

/-- `Database.delete_file_version`: delete the row, returning its
backup path. -/
def delete_file_version (db : DocDB) (version_id : Nat) : DocDB × Option String :=
  match db.versions.find? (fun v => v.id = version_id) with
  | none => (db, none)
  | some v =>
    ({ db with versions := db.versions.filter (fun w => ¬ w.id = version_id) },
     some v.backup_path)

/-- `Database.create_document`. -/
def create_document (db : DocDB) (filename stored_path file_type description : String)
    (uploaded_by : Nat) (part_id : Option Nat) (now : Nat) : DocDB × Doc :=
  let d : Doc := ⟨db.next_doc_id, part_id, filename, stored_path, file_type,
    description, uploaded_by, now⟩
  ({ db with docs := db.docs ++ [d], next_doc_id := db.next_doc_id + 1 }, d)

def get_document (db : DocDB) (doc_id : Nat) : Option Doc :=
  db.docs.find? (fun dd => dd.id = doc_id)

def get_file_version (db : DocDB) (version_id : Nat) : Option FileVersion :=
  db.versions.find? (fun v => v.id = version_id)

/-- `files.save_upload`: back up the current canonical ("god") file when a
CAD file replaces an existing document of the same part, rotate old
backups, write the new content to the canonical path, and upsert the
document row. -/
def save_upload (db : DocDB) (file_data : Nat) (filename : String)
    (part_id : Option Nat) (description : String) (user_id : Nat)
    (clk : Clock) (now : Nat) : DocDB × Doc :=
  let file_type := strLower (String.mk ((pySuffix filename).data.dropWhile (fun c => c = '.')))
  let is_cad := is_cad_file filename
  let dest := ext_folder filename
  let god_path := dest ++ "/" ++ filename
  let db1 : DocDB :=
    match part_id with
    | none => db
    | some pid =>
      if is_cad then
        match (list_documents db pid).find? (fun dd => dd.filename = filename) with
        | none => db
        | some existing =>
          match diskRead db.disk god_path with
          | none => db
          | some god_content =>
            let label := version_label clk
            let backup_path := dest ++ "/" ++ (pyStem filename ++ label ++ pySuffix filename)
            let dbB := add_file_version { db with disk := diskWrite db.disk backup_path god_content }
              existing.id label backup_path god_content user_id now
            (get_old_versions dbB existing.id MAX_FILE_VERSIONS).foldl
              (fun acc v =>
                let acc1 :=
                  if (diskRead acc.disk v.backup_path).isSome
                  then { acc with disk := diskRemove acc.disk v.backup_path }
                  else acc
                (delete_file_version acc1 v.id).1)
              dbB
      else db
  let db2 : DocDB := { db1 with disk := diskWrite db1.disk god_path file_data }
  match part_id with
  | some pid =>
    if is_cad then
      match (list_documents db2 pid).find? (fun dd => dd.filename = filename) with
      | some existing => (db2, existing)
      | none => create_document db2 filename god_path file_type description user_id part_id now
    else create_document db2 filename god_path file_type description user_id part_id now
  | none => create_document db2 filename god_path file_type description user_id part_id now

/-- The Temp destination `restore_version` moves the displaced canonical
file to. -/
def tempDest (doc : Doc) (clk : Clock) : String :=
  FILES_ROOT ++ "/Temp/" ++ pyStem (basename doc.stored_path) ++ "_"
    ++ restore_label clk ++ pySuffix (basename doc.stored_path)

/-- `files.restore_version`: NotFound when the document or version row is
missing or the backup file is gone; otherwise move the current canonical
file (if any) into Temp under a timestamped name and copy the backup over
the canonical path. -/
def restore_version (db : DocDB) (doc_id version_id user_id : Nat) (clk : Clock) :
    DocDB × Option ApiError :=
  match get_document db doc_id, get_file_version db version_id with
  | none, _ => (db, some .NotFound)
  | some _, none => (db, some .NotFound)
  | some doc, some version =>
    match diskRead db.disk version.backup_path with
    | none => (db, some .NotFound)
    | some _ =>
      let god_path := doc.stored_path
      let db1 : DocDB :=
        match diskRead db.disk god_path with
        | some god_content =>
          let moved := diskWrite (diskRemove db.disk god_path) (tempDest doc clk) god_content
          { db with disk := moved }
        | none => db
      match diskRead db1.disk version.backup_path with
      | some bc => ({ db1 with disk := diskWrite db1.disk god_path bc }, none)
      | none => (db1, some .NotFound)

/-- Split a character list at every '/' (Python `"/".split` semantics). -/
def splitSlash : List Char → List (List Char)
  | [] => [[]]
  | c :: rest =>
    if c = '/' then [] :: splitSlash rest
    else
      match splitSlash rest with
      | [] => [[c]]
      | s :: ss => (c :: s) :: ss

def splitSegs (s : String) : List String := (splitSlash s.data).map String.mk

/-- `pathlib.Path.resolve` on an absolute path without symlinks: drop
empty and "." segments and let ".." cancel the previous segment. -/
def resolveSegs (segs : List String) : List String :=
  segs.foldl
    (fun acc seg =>
      if seg = "" ∨ seg = "." then acc
      else if seg = ".." then acc.dropLast
      else acc ++ [seg])
    []

def joinSegs : List String → String
  | [] => ""
  | [s] => s
  | s :: rest => s ++ "/" ++ joinSegs rest

def resolve (path : String) : String :=
  "/" ++ joinSegs (resolveSegs (splitSegs path))

/-- Python `str.startswith`: character-wise prefix test. -/
def str_startswith (s pre : String) : Bool := pre.data.isPrefixOf s.data

/-- `files.get_file_path`: resolve, then accept iff the resolved string
STARTS WITH the resolved root string. -/
def get_file_path (stored_path : String) : Except ApiError String :=
  let p := resolve stored_path
  let root := resolve FILES_ROOT
  if str_startswith p root then .ok p else .error .PathTraversal

/-- Modelled from the spec: "a resolved stored path escapes the configured
storage root" — falling under the root means the resolved segment list of
the stored path extends the resolved segment list of the root. -/
def under_root (stored_path : String) : Bool :=
  (resolveSegs (splitSegs FILES_ROOT)).isPrefixOf
    (resolveSegs (splitSegs stored_path))

lemma diskRead_write_self (d : List (String × Nat)) (p : String) (c : Nat) :
    diskRead (diskWrite d p c) p = some c := by
  induction d with
  | nil => simp [diskWrite, diskRead]
  | cons e rest ih =>
    by_cases h : e.1 = p
    · simp [diskWrite, h, diskRead]
    · simp [diskWrite, h, diskRead, ih]

lemma diskRead_write_other (d : List (String × Nat)) {p q : String} (c : Nat)
    (h : ¬ p = q) : diskRead (diskWrite d p c) q = diskRead d q := by
  induction d with
  | nil => simp [diskWrite, diskRead, h]
  | cons e rest ih =>
    by_cases he : e.1 = p
    · rw [diskWrite, if_pos he, diskRead, diskRead, he]
      simp [h]
    · rw [diskWrite, if_neg he, diskRead, diskRead]
      by_cases hq : e.1 = q
      · simp [hq]
      · simp [hq, ih]

lemma diskRead_remove_other (d : List (String × Nat)) {p q : String}
    (h : ¬ p = q) : diskRead (diskRemove d p) q = diskRead d q := by
  induction d with
  | nil => rfl
  | cons e rest ih =>
    by_cases he : e.1 = p
    · rw [diskRemove, if_pos he, diskRead]
      have : ¬ e.1 = q := by rw [he]; exact h
      simp [this]
    · rw [diskRemove, if_neg he, diskRead, diskRead]
      by_cases hq : e.1 = q
      · simp [hq]
      · simp [hq, ih]

/-! ### Upload scenarios used by the document-store theorems -/

/-- A clock fixed to 01-02 03:`mi`, varying only the minute. -/
def clkStl (mi : Nat) : Clock := ⟨1, 2, 3, mi, 0⟩

/-- One upload of `bracket.stl` (a recognized CAD extension) to part 1. -/
def uplStl (db : DocDB) (c mi now : Nat) : DocDB :=
  (save_upload db c "bracket.stl" (some 1) "" 7 (clkStl mi) now).1

/-- Empty document store. -/
def dbDS0 : DocDB := ⟨[], [], [], 1, 1⟩

/-- Four uploads of the same CAD filename, one minute apart. -/
def run4 (c1 c2 c3 c4 : Nat) : DocDB :=
  uplStl (uplStl (uplStl (uplStl dbDS0 c1 1 1) c2 2 2) c3 3 3) c4 4 4

/-- Three uploads: the second and the third fall in the same clock minute. -/
def run10 (c0 c1 c2 : Nat) : DocDB :=
  uplStl (uplStl (uplStl dbDS0 c0 1 1) c1 5 2) c2 5 3

/-! Intermediate states of the upload scenarios, proved step by step so
each step evaluates a single `save_upload`. -/

def godStl : String := "/srv/plm/files/STL/bracket.stl"

def bk2 : String := "/srv/plm/files/STL/bracket_0102_0302.stl"

def bk3 : String := "/srv/plm/files/STL/bracket_0102_0303.stl"

def bk4 : String := "/srv/plm/files/STL/bracket_0102_0304.stl"

def bk5 : String := "/srv/plm/files/STL/bracket_0102_0305.stl"

def docStl : Doc := ⟨1, some 1, "bracket.stl", godStl, "stl", "", 7, 1⟩

def fvStl (i : Nat) (label bp : String) (c t : Nat) : FileVersion :=
  ⟨i, 1, label, bp, c, 7, t⟩

def st1 (c1 : Nat) : DocDB := ⟨[docStl], [], [(godStl, c1)], 2, 1⟩

def st2 (c1 c2 : Nat) : DocDB :=
  ⟨[docStl], [fvStl 1 "_0102_0302" bk2 c1 2], [(godStl, c2), (bk2, c1)], 2, 2⟩

def st3 (c1 c2 c3 : Nat) : DocDB :=
  ⟨[docStl], [fvStl 1 "_0102_0302" bk2 c1 2, fvStl 2 "_0102_0303" bk3 c2 3],
   [(godStl, c3), (bk2, c1), (bk3, c2)], 2, 3⟩

def st4 (c1 c2 c3 c4 : Nat) : DocDB :=
  ⟨[docStl],
   [fvStl 1 "_0102_0302" bk2 c1 2, fvStl 2 "_0102_0303" bk3 c2 3,
    fvStl 3 "_0102_0304" bk4 c3 4],
   [(godStl, c4), (bk2, c1), (bk3, c2), (bk4, c3)], 2, 4⟩

def st5 (c2 c3 c4 c5 : Nat) : DocDB :=
  ⟨[docStl],
   [fvStl 2 "_0102_0303" bk3 c2 3, fvStl 3 "_0102_0304" bk4 c3 4,
    fvStl 4 "_0102_0305" bk5 c4 5],
   [(godStl, c5), (bk3, c2), (bk4, c3), (bk5, c4)], 2, 5⟩

def rt2 (c0 c1 : Nat) : DocDB :=
  ⟨[docStl], [fvStl 1 "_0102_0305" bk5 c0 2], [(godStl, c1), (bk5, c0)], 2, 2⟩

def rt3 (c0 c1 c2 : Nat) : DocDB :=
  ⟨[docStl], [fvStl 1 "_0102_0305" bk5 c0 2, fvStl 2 "_0102_0305" bk5 c1 3],
   [(godStl, c2), (bk5, c1)], 2, 3⟩

lemma uplStl1 (c1 : Nat) : uplStl dbDS0 c1 1 1 = st1 c1 := rfl

lemma uplStl2 (c1 c2 : Nat) : uplStl (st1 c1) c2 2 2 = st2 c1 c2 := rfl

lemma uplStl3 (c1 c2 c3 : Nat) : uplStl (st2 c1 c2) c3 3 3 = st3 c1 c2 c3 := rfl

lemma uplStl4 (c1 c2 c3 c4 : Nat) :
    uplStl (st3 c1 c2 c3) c4 4 4 = st4 c1 c2 c3 c4 := rfl

lemma uplStl5 (c1 c2 c3 c4 c5 : Nat) :
    uplStl (st4 c1 c2 c3 c4) c5 5 5 = st5 c2 c3 c4 c5 := rfl

lemma uplStlB (c0 c1 : Nat) : uplStl (st1 c0) c1 5 2 = rt2 c0 c1 := rfl

lemma uplStlC (c0 c1 c2 : Nat) : uplStl (rt2 c0 c1) c2 5 3 = rt3 c0 c1 c2 := rfl

lemma run4_eq (c1 c2 c3 c4 : Nat) : run4 c1 c2 c3 c4 = st4 c1 c2 c3 c4 := by
  rw [run4, uplStl1, uplStl2, uplStl3, uplStl4]

lemma run10_eq (c0 c1 c2 : Nat) : run10 c0 c1 c2 = rt3 c0 c1 c2 := by
  rw [run10, uplStl1, uplStlB, uplStlC]

/-- C5: the path guard accepts a stored path under the real root and
rejects one that escapes via "..", but it also accepts
"/srv/plm/files-evil/part.stl" — a sibling directory that merely shares
the root as a string prefix — although that resolved path does not fall
under the storage root, because the check compares resolved paths with
`str.startswith` on raw strings. -/
theorem C5_path_guard_bug :
    (get_file_path "/srv/plm/files/STL/bracket.stl"
        = Except.ok "/srv/plm/files/STL/bracket.stl"
      ∧ under_root "/srv/plm/files/STL/bracket.stl" = true)
    ∧ (get_file_path "/srv/plm/files/STL/../../secret/x.stl"
        = Except.error ApiError.PathTraversal
      ∧ under_root "/srv/plm/files/STL/../../secret/x.stl" = false)
    ∧ (get_file_path "/srv/plm/files-evil/part.stl"
        = Except.ok "/srv/plm/files-evil/part.stl"
      ∧ under_root "/srv/plm/files-evil/part.stl" = false) :=
  ⟨⟨rfl, rfl⟩, ⟨rfl, rfl⟩, rfl, rfl⟩

/-- C4 counterexample: uploading bracket.stl four times (contents 1,2,3,4,
one minute apart) leaves exactly 3 FileVersion rows, but the 1st (oldest)
backup — made on the SECOND upload, since the first upload of a new
filename makes no backup — is still present on disk (with content 1) and
still referenced by a metadata row, contradicting "the 1st (oldest) backup
is absent from both disk and metadata". -/
theorem C4_retention_counterexample :
    (run4 1 2 3 4).versions.length = 3
    ∧ diskRead (run4 1 2 3 4).disk "/srv/plm/files/STL/bracket_0102_0302.stl" = some 1
    ∧ ((run4 1 2 3 4).versions.filter
        (fun v => v.backup_path = "/srv/plm/files/STL/bracket_0102_0302.stl")).length
        = 1 := by
  rw [run4_eq]
  exact ⟨rfl, rfl, rfl⟩

/-- C4 (amended): the first upload of a new filename creates the document
and writes the canonical file without any backup, so four uploads produce
only three backups and no eviction: all three FileVersion rows and all
three backup files — including the oldest, still holding the first
upload's content — remain. Eviction first happens on the fifth upload,
which deletes exactly the oldest backup from disk and metadata, keeping
the newest `MAX_FILE_VERSIONS = 3`. -/
theorem C4_retention_behavior (c1 c2 c3 c4 c5 : Nat) :
    ((run4 c1 c2 c3 c4).versions.map (fun v => (v.version_label, v.backup_path))
      = [("_0102_0302", "/srv/plm/files/STL/bracket_0102_0302.stl"),
         ("_0102_0303", "/srv/plm/files/STL/bracket_0102_0303.stl"),
         ("_0102_0304", "/srv/plm/files/STL/bracket_0102_0304.stl")])
    ∧ (run4 c1 c2 c3 c4).disk =
        [("/srv/plm/files/STL/bracket.stl", c4),
         ("/srv/plm/files/STL/bracket_0102_0302.stl", c1),
         ("/srv/plm/files/STL/bracket_0102_0303.stl", c2),
         ("/srv/plm/files/STL/bracket_0102_0304.stl", c3)]
    ∧ ((uplStl (run4 c1 c2 c3 c4) c5 5 5).versions.map (fun v => v.backup_path)
      = ["/srv/plm/files/STL/bracket_0102_0303.stl",
         "/srv/plm/files/STL/bracket_0102_0304.stl",
         "/srv/plm/files/STL/bracket_0102_0305.stl"])
    ∧ (uplStl (run4 c1 c2 c3 c4) c5 5 5).disk =
        [("/srv/plm/files/STL/bracket.stl", c5),
         ("/srv/plm/files/STL/bracket_0102_0303.stl", c2),
         ("/srv/plm/files/STL/bracket_0102_0304.stl", c3),
         ("/srv/plm/files/STL/bracket_0102_0305.stl", c4)]
    ∧ diskRead (uplStl (run4 c1 c2 c3 c4) c5 5 5).disk
        "/srv/plm/files/STL/bracket_0102_0302.stl" = none := by
  have h5 : uplStl (run4 c1 c2 c3 c4) c5 5 5 = st5 c2 c3 c4 c5 := by
    rw [run4_eq, uplStl5]
  refine ⟨?_, ?_, ?_, ?_, ?_⟩
  · rw [run4_eq]; rfl
  · rw [run4_eq]; rfl
  · rw [h5]; rfl
  · rw [h5]; rfl
  · rw [h5]
    show diskRead [(godStl, c5), (bk3, c2), (bk4, c3), (bk5, c4)] bk2 = none
    rfl

/-- C10: the backup version label depends only on month, day, hour and
minute, so when two backups of the same document fall in the same clock
minute (run10: an initial upload establishing the document, then two
uploads in minute 5) the second backup is written to the identical
backup_path, overwriting the first backup's content, while a second
FileVersion row with the same label is still inserted: two metadata rows
reference one file, and the first backed-up content `c0` is no longer
readable anywhere on disk. -/
theorem C10_label_collision (c0 c1 c2 : Nat) (h1 : ¬ c0 = c1) (h2 : ¬ c0 = c2) :
    (∀ cl cl' : Clock, cl.month = cl'.month → cl.day = cl'.day →
      cl.hour = cl'.hour → cl.minute = cl'.minute →
      version_label cl = version_label cl')
    ∧ ((run10 c0 c1 c2).versions.map (fun v => (v.version_label, v.backup_path))
      = [("_0102_0305", "/srv/plm/files/STL/bracket_0102_0305.stl"),
         ("_0102_0305", "/srv/plm/files/STL/bracket_0102_0305.stl")])
    ∧ (run10 c0 c1 c2).disk =
        [("/srv/plm/files/STL/bracket.stl", c2),
         ("/srv/plm/files/STL/bracket_0102_0305.stl", c1)]
    ∧ (∀ q : String, ¬ diskRead (run10 c0 c1 c2).disk q = some c0) := by
  refine ⟨?_, ?_, ?_, ?_⟩
  · intro cl cl' hm hd hh hmi
    rw [version_label, version_label, hm, hd, hh, hmi]
  · rw [run10_eq]; rfl
  · rw [run10_eq]; rfl
  · intro q hq
    rw [run10_eq] at hq
    have hd : (rt3 c0 c1 c2).disk = [(godStl, c2), (bk5, c1)] := rfl
    rw [hd] at hq
    rw [diskRead] at hq
    split at hq
    · exact h2 (Option.some.inj hq).symm
    · rw [diskRead] at hq
      split at hq
      · exact h1 (Option.some.inj hq).symm
      · exact Option.noConfusion hq

/-- C10 witness: the collision scenario at concrete contents 1, 2, 3. -/
theorem C10_label_collision_witness :
    ((run10 1 2 3).versions.map (fun v => (v.version_label, v.backup_path))
      = [("_0102_0305", "/srv/plm/files/STL/bracket_0102_0305.stl"),
         ("_0102_0305", "/srv/plm/files/STL/bracket_0102_0305.stl")])
    ∧ diskRead (run10 1 2 3).disk "/srv/plm/files/STL/bracket_0102_0305.stl" = some 2
    ∧ ¬ diskRead (run10 1 2 3).disk "/srv/plm/files/STL/bracket_0102_0305.stl" = some 1 :=
  ⟨(C10_label_collision 1 2 3 (by decide) (by decide)).2.1,
   by rw [run10_eq]; rfl,
   (C10_label_collision 1 2 3 (by decide) (by decide)).2.2.2
     "/srv/plm/files/STL/bracket_0102_0305.stl"⟩

/-- A store with one document, one version row, and both the canonical
file (content 20) and the backup (content 10) on disk. -/
def db6 : DocDB :=
  ⟨[⟨1, some 1, "bracket.stl", "/srv/plm/files/STL/bracket.stl", "stl", "", 7, 1⟩],
   [⟨1, 1, "_0102_0302", "/srv/plm/files/STL/bracket_0102_0302.stl", 10, 7, 2⟩],
   [("/srv/plm/files/STL/bracket.stl", 20),
    ("/srv/plm/files/STL/bracket_0102_0302.stl", 10)], 2, 2⟩

/-- C6: restore_version returns NotFound with the whole store (files and
metadata) unchanged when the document id is unknown, the version id is
unknown, or the backup file is missing from disk; on success (for distinct
canonical, backup and Temp paths) it reports no error, leaves document and
version rows unchanged, makes the canonical file's content equal the
backup's content (which itself survives), and any previously-canonical
content is preserved at the timestamped Temp destination. -/
theorem C6_restore_version (db : DocDB) (doc_id version_id user_id : Nat) (clk : Clock) :
    (get_document db doc_id = none →
      restore_version db doc_id version_id user_id clk = (db, some ApiError.NotFound))
    ∧ (∀ doc, get_document db doc_id = some doc →
        get_file_version db version_id = none →
        restore_version db doc_id version_id user_id clk = (db, some ApiError.NotFound))
    ∧ (∀ doc version, get_document db doc_id = some doc →
        get_file_version db version_id = some version →
        diskRead db.disk version.backup_path = none →
        restore_version db doc_id version_id user_id clk = (db, some ApiError.NotFound))
    ∧ (∀ doc version bc, get_document db doc_id = some doc →
        get_file_version db version_id = some version →
        diskRead db.disk version.backup_path = some bc →
        ¬ doc.stored_path = version.backup_path →
        ¬ tempDest doc clk = version.backup_path →
        ¬ tempDest doc clk = doc.stored_path →
        (restore_version db doc_id version_id user_id clk).2 = none
        ∧ (restore_version db doc_id version_id user_id clk).1.docs = db.docs
        ∧ (restore_version db doc_id version_id user_id clk).1.versions = db.versions
        ∧ diskRead (restore_version db doc_id version_id user_id clk).1.disk
            doc.stored_path = some bc
        ∧ diskRead (restore_version db doc_id version_id user_id clk).1.disk
            version.backup_path = some bc
        ∧ ∀ gc, diskRead db.disk doc.stored_path = some gc →
            diskRead (restore_version db doc_id version_id user_id clk).1.disk
              (tempDest doc clk) = some gc) := by
  refine ⟨?_, ?_, ?_, ?_⟩
  · intro h
    simp only [restore_version, h]
  · intro doc hdoc hver
    simp only [restore_version, hdoc, hver]
  · intro doc version hdoc hver hbc
    simp only [restore_version, hdoc, hver, hbc]
  · intro doc version bc hdoc hver hbc hne1 hne2 hne3
    cases hg : diskRead db.disk doc.stored_path with
    | none =>
      have hr : restore_version db doc_id version_id user_id clk
          = ({ db with disk := diskWrite db.disk doc.stored_path bc }, none) := by
        simp only [restore_version, hdoc, hver, hbc, hg]
      refine ⟨by rw [hr], by rw [hr], by rw [hr], ?_, ?_, ?_⟩
      · rw [hr]
        exact diskRead_write_self _ _ _
      · rw [hr]
        show diskRead (diskWrite db.disk doc.stored_path bc) version.backup_path = some bc
        rw [diskRead_write_other _ _ hne1, hbc]
      · intro gc hgc
        exact Option.noConfusion hgc
    | some gd =>
      have hr : restore_version db doc_id version_id user_id clk
          = ({ db with disk := diskWrite (diskWrite (diskRemove db.disk doc.stored_path) (tempDest doc clk) gd) doc.stored_path bc }, none) := by
        simp only [restore_version, hdoc, hver, hbc, hg]
        rw [diskRead_write_other _ _ hne2, diskRead_remove_other _ hne1, hbc]
      refine ⟨by rw [hr], by rw [hr], by rw [hr], ?_, ?_, ?_⟩
      · rw [hr]
        exact diskRead_write_self _ _ _
      · rw [hr]
        show diskRead (diskWrite
            (diskWrite (diskRemove db.disk doc.stored_path) (tempDest doc clk) gd)
            doc.stored_path bc) version.backup_path = some bc
        rw [diskRead_write_other _ _ hne1, diskRead_write_other _ _ hne2,
          diskRead_remove_other _ hne1, hbc]
      · intro gc hgc
        have hgd : gd = gc := Option.some.inj hgc
        rw [hr]
        show diskRead (diskWrite
            (diskWrite (diskRemove db.disk doc.stored_path) (tempDest doc clk) gd)
            doc.stored_path bc) (tempDest doc clk) = some gc
        rw [diskRead_write_other _ _ (fun h => hne3 h.symm),
          diskRead_write_self, hgd]

/-- C6 witness: restoring version 1 of document 1 in `db6` succeeds, the
canonical file now holds the backup's content 10, and the displaced
canonical content 20 sits at the Temp destination. -/
theorem C6_restore_version_witness :
    (restore_version db6 1 1 7 ⟨6, 7, 8, 9, 11⟩).2 = none
    ∧ diskRead (restore_version db6 1 1 7 ⟨6, 7, 8, 9, 11⟩).1.disk
        "/srv/plm/files/STL/bracket.stl" = some 10
    ∧ diskRead (restore_version db6 1 1 7 ⟨6, 7, 8, 9, 11⟩).1.disk
        "/srv/plm/files/Temp/bracket_0607_080911.stl" = some 20 := by
  have h := (C6_restore_version db6 1 1 7 ⟨6, 7, 8, 9, 11⟩).2.2.2
    ⟨1, some 1, "bracket.stl", "/srv/plm/files/STL/bracket.stl", "stl", "", 7, 1⟩
    ⟨1, 1, "_0102_0302", "/srv/plm/files/STL/bracket_0102_0302.stl", 10, 7, 2⟩
    10 rfl rfl rfl (by decide) (by decide) (by decide)
  exact ⟨h.1, h.2.2.2.1, h.2.2.2.2.2 20 rfl⟩

end PLM
